import Mathlib

/-!
# miniDB: row store and paged file codec

A shallow embedding of `src/include/*.hpp`, `src/src/rowStore.cpp` and
`src/src/fileManager.cpp`, followed by theorems about the embedded code.

Conventions of the embedding.

* A byte is a `Fin 256`.  An `int` field is carried as its 32-bit pattern
  (`Fin (2^32)`, two's complement), a `double` field as its 64-bit IEEE-754
  pattern (`Fin (2^64)`); `memcpy` of a scalar is the little-endian byte
  sequence of the pattern (the byte order of the x86-64 / AArch64 targets).
* `size_t` is 64 bits wide, `uint32_t` 32 bits wide.  The page counter, the page
  number of the reading loop, the slot offset and the narrowing of a string's
  size to `uint32_t` can wrap and carry an explicit `%`.  Sums of an offset
  inside one buffer and a field size are bounded by the buffer size plus 2^32,
  far below 2^64, and are written without `%`.
* A file is the list of its bytes.  `write` is entered with the stream in the
  good state; `read` clears the state itself and tracks the `failbit` in its
  page loop.
* A `std::vector` is a `List`; `std::function` arguments are pure functions.
-/

namespace MiniDB

/-! ## Schema.hpp -/

/-- One `char`. -/
abbrev Byte := Fin 256

/-- The enumeration `SupportedTypes {INT, DOUBLE, STRING}`. -/
inductive SupportedTypes where
  | INT
  | DOUBLE
  | STRING
  deriving DecidableEq, Repr

/-- One alternative of `std::variant<int, double, std::string>`.  The `int` and
the `double` are carried as bit patterns, the string as its bytes. -/
inductive Field where
  | int (v : Fin 4294967296)
  | double (v : Fin 18446744073709551616)
  | string (s : List Byte)
  deriving DecidableEq, Repr

/-- The type `Row = std::vector<std::variant<...>>`. -/
abbrev Row := List Field

/-- The type `TableData = std::vector<Row>`. -/
abbrev TableData := List Row

/-- The type `Schema = std::vector<std::pair<std::string, SupportedTypes>>`. -/
abbrev Schema := List (String × SupportedTypes)

/-- The call `std::holds_alternative<int>(field)`. -/
def holdsInt : Field → Bool
  | .int _ => true
  | _ => false

/-- The call `std::holds_alternative<double>(field)`. -/
def holdsDouble : Field → Bool
  | .double _ => true
  | _ => false

/-- The call `std::holds_alternative<std::string>(field)`. -/
def holdsString : Field → Bool
  | .string _ => true
  | _ => false

/-- The column type whose alternative a field currently holds. -/
def Field.runtimeType : Field → SupportedTypes
  | .int _ => .INT
  | .double _ => .DOUBLE
  | .string _ => .STRING

/-- Exact positional conformance: the runtime types of the row's fields, read in
order, are the declared column types of the schema, read in order.  This says
that the row has the schema's length and that at every position the field's
runtime type is the declared one (`conforms_iff_positional`). -/
def conforms (schema : Schema) (row : Row) : Prop :=
  row.map Field.runtimeType = schema.map Prod.snd

instance instDecidableConforms (schema : Schema) (row : Row) :
    Decidable (conforms schema row) :=
  inferInstanceAs (Decidable (row.map Field.runtimeType = schema.map Prod.snd))

/-! ## rowStore.cpp -/

/-- The class `RowStore`: its two data members. -/
structure RowStore where
  table_data : TableData
  schema : Schema
  deriving DecidableEq, Repr

/-- The constructor `RowStore::RowStore(schema)`: no rows. -/
def RowStore.new (schema : Schema) : RowStore :=
  { table_data := [], schema := schema }

/-- The body of the `switch (schema[i].second)` of `validateRow`, for one
position; `false` stands for `return false`, `true` for reaching the `break`.
The `case` labels carry no `break` of their own, so control entering at `INT`
runs the `DOUBLE` and `STRING` tests as well, and control entering at `DOUBLE`
runs the `STRING` test. -/
def validateSwitch (t : SupportedTypes) (field : Field) : Bool :=
  match t with
  | .INT =>
      if !holdsInt field then false
      else if !holdsDouble field then false
      else if !holdsString field then false
      else true
  | .DOUBLE =>
      if !holdsDouble field then false
      else if !holdsString field then false
      else true
  | .STRING =>
      if !holdsString field then false
      else true

/-- The `for` loop of `validateRow`, walking the schema and the row in step
(the caller has checked that both have the same length). -/
def validateLoop : Schema → Row → Bool
  | col :: cols, field :: fields =>
      if validateSwitch col.2 field then validateLoop cols fields else false
  | _, _ => true

/-- The method `RowStore::validateRow`. -/
def RowStore.validateRow (s : RowStore) (row : Row) : Bool :=
  if row.length ≠ s.schema.length then false
  else validateLoop s.schema row

/-- The method `RowStore::rowCount`. -/
def RowStore.rowCount (s : RowStore) : Nat :=
  s.table_data.length

/-- The method `RowStore::loadData`. -/
def RowStore.loadData (s : RowStore) (data : TableData) : RowStore :=
  { s with table_data := data }

/-- The method `RowStore::insert`: the returned flag and the store afterwards. -/
def RowStore.insert (s : RowStore) (row : Row) : Bool × RowStore :=
  if !s.validateRow row then (false, s)
  else (true, { s with table_data := s.table_data ++ [row] })

/-- The method `RowStore::getRow`. -/
def RowStore.getRow (s : RowStore) (index : Nat) : Option Row :=
  if index ≥ s.table_data.length then none
  else s.table_data[index]?

/-- The method `RowStore::select`. -/
def RowStore.select (s : RowStore) (predicate : Row → Bool) : TableData :=
  s.table_data.foldl (fun result row => if predicate row then result ++ [row] else result) []

/-- The method `RowStore::update`. -/
def RowStore.update (s : RowStore) (index : Nat) (newRow : Row) : Bool × RowStore :=
  if index ≥ s.table_data.length then (false, s)
  else if !s.validateRow newRow then (false, s)
  else (true, { s with table_data := s.table_data.set index newRow })

/-- The range-`for` of `updateWhere` over the rows still to visit, with the
running `updateCount`; returns the final count and the rows as left behind. -/
def updateWhereLoop (s : RowStore) (predicate : Row → Bool) (updateFunc : Row → Row) :
    TableData → Nat → Nat × TableData
  | [], updateCount => (updateCount, [])
  | row :: rest, updateCount =>
      if predicate row then
        let newRow := updateFunc row
        if s.validateRow newRow then
          let r := updateWhereLoop s predicate updateFunc rest (updateCount + 1)
          (r.1, newRow :: r.2)
        else
          let r := updateWhereLoop s predicate updateFunc rest updateCount
          (r.1, row :: r.2)
      else
        let r := updateWhereLoop s predicate updateFunc rest updateCount
        (r.1, row :: r.2)

/-- The method `RowStore::updateWhere`: the returned count and the store
afterwards. -/
def RowStore.updateWhere (s : RowStore) (predicate : Row → Bool) (updateFunc : Row → Row) :
    Nat × RowStore :=
  let r := updateWhereLoop s predicate updateFunc s.table_data 0
  (r.1, { s with table_data := r.2 })

/-- The method `RowStore::deleteRow`. -/
def RowStore.deleteRow (s : RowStore) (index : Nat) : Bool × RowStore :=
  if index ≥ s.table_data.length then (false, s)
  else (true, { s with table_data := s.table_data.eraseIdx index })

/-- The method `RowStore::deleteWhere`: `std::remove_if` keeps, in order, the
rows on which the predicate is false, `erase` cuts the tail off, and the result
is the difference of the two sizes. -/
def RowStore.deleteWhere (s : RowStore) (predicate : Row → Bool) : Nat × RowStore :=
  let initialSize := s.table_data.length
  let kept := s.table_data.filter (fun row => !predicate row)
  (initialSize - kept.length, { s with table_data := kept })

/-! ## Page.hpp -/

/-- The constant `PAGE_SIZE`. -/
def PAGE_SIZE : Nat := 4096

/-- The struct `Page`: the `std::array<char, PAGE_SIZE>` as the list of its
bytes, and the `size_t` counter. -/
structure Page where
  data : List Byte
  used_bytes : Nat
  deriving DecidableEq, Repr

/-- The method `Page::hasSpace`. -/
def Page.hasSpace (p : Page) (n : Nat) : Bool :=
  decide (p.used_bytes + n ≤ PAGE_SIZE)

/-- The method `Page::clear`. -/
def Page.clear (p : Page) : Page :=
  { p with used_bytes := 0 }

/-- The method `Page::getReadPtr`: a pointer into the array, as the bytes from
`offset` up to the end of the array. -/
def Page.getReadPtr (p : Page) (offset : Nat) : List Byte :=
  p.data.drop offset

/-! ## Memory and scalars -/

/-- The `n` little-endian bytes of `v` (the object representation that `memcpy`
and `file.write` copy out of an unsigned or two's-complement scalar). -/
def toLE : Nat → Nat → List Byte
  | 0, _ => []
  | n + 1, v => ⟨v % 256, Nat.mod_lt v (by decide)⟩ :: toLE n (v / 256)

/-- The value whose little-endian bytes are given. -/
def fromLE : List Byte → Nat
  | [] => 0
  | b :: bs => b.val + 256 * fromLE bs

/-- The call `std::memcpy(dst + offset, src, src.length)` on a destination array
given as the list of its bytes.  Every caller has checked
`offset + src.length <= dst.length` beforehand. -/
def memcpy (dst : List Byte) (offset : Nat) (src : List Byte) : List Byte :=
  dst.take offset ++ src ++ dst.drop (offset + src.length)

/-- Reading `n` bytes at `offset` through a pointer whose array is `buffer`:
`none` when the bytes do not all lie inside the array. -/
def readBytes (buffer : List Byte) (offset n : Nat) : Option (List Byte) :=
  if offset + n ≤ buffer.length then some ((buffer.drop offset).take n) else none

/-- An array of `n` bytes that has not been initialised: its content is
whatever `g` says it is. -/
def uninitialised (g : Nat → Byte) (n : Nat) : List Byte :=
  (List.range n).map g

/-- How a run of the reading code can end without a value. -/
inductive Fault where
  | outOfBounds
  | outOfFuel
  deriving DecidableEq, Repr

/-! ## fileManager.cpp -/

/-- The constant `HEADER_SIZE = sizeof(uint32_t)`. -/
def HEADER_SIZE : Nat := 4

/-- The constant `DATA_PAGE_OFFSET = PAGE_SIZE + HEADER_SIZE`. -/
def DATA_PAGE_OFFSET : Nat := PAGE_SIZE + HEADER_SIZE

/-- The value of `sizeof(size_t)`. -/
def SIZEOF_SIZE_T : Nat := 8

/-- The `for` loop of `serializeRow` over the fields still to write, with the
running `offset` and the buffer; the result is the returned size and the buffer
as left behind.  The declaration `uint32_t len = s.size()` keeps the low 32
bits of the size. -/
def serializeLoop (bufferSize : Nat) : Row → Nat → List Byte → Nat × List Byte
  | [], offset, buffer => (offset, buffer)
  | .int value :: rest, offset, buffer =>
      if offset + 4 > bufferSize then (0, buffer)
      else serializeLoop bufferSize rest (offset + 4) (memcpy buffer offset (toLE 4 value.val))
  | .double value :: rest, offset, buffer =>
      if offset + 8 > bufferSize then (0, buffer)
      else serializeLoop bufferSize rest (offset + 8) (memcpy buffer offset (toLE 8 value.val))
  | .string s :: rest, offset, buffer =>
      let len := s.length % 4294967296
      if len > PAGE_SIZE ∨ offset + 4 + len > bufferSize then (0, buffer)
      else
        let buffer1 := memcpy buffer offset (toLE 4 len)
        let buffer2 := memcpy buffer1 (offset + 4) (s.take len)
        serializeLoop bufferSize rest (offset + 4 + len) buffer2

/-- The method `FileManager::serializeRow`; `none` is the null pointer.  The
result is the returned size and the buffer afterwards. -/
def serializeRow (row : Row) (buffer : Option (List Byte)) (bufferSize : Nat) :
    Nat × Option (List Byte) :=
  match buffer with
  | none => (0, none)
  | some buf =>
      if bufferSize = 0 then (0, some buf)
      else
        let r := serializeLoop bufferSize row 0 buf
        (r.1, some r.2)

/-- The `for` loop of `deserializeRow` over the columns still to read, with the
running `offset` and the row built so far.  A read that leaves the array the
pointer points into is `Fault.outOfBounds`. -/
def deserializeLoop (buffer : List Byte) (bufferSize : Nat) :
    Schema → Nat → Row → Except Fault (Nat × Row)
  | [], offset, row => .ok (offset, row)
  | (_, .INT) :: cols, offset, row =>
      if offset + 4 > bufferSize then .ok (0, row)
      else
        match readBytes buffer offset 4 with
        | none => .error .outOfBounds
        | some bs =>
            deserializeLoop buffer bufferSize cols (offset + 4)
              (row ++ [.int ⟨fromLE bs % 4294967296, Nat.mod_lt _ (by decide)⟩])
  | (_, .DOUBLE) :: cols, offset, row =>
      if offset + 8 > bufferSize then .ok (0, row)
      else
        match readBytes buffer offset 8 with
        | none => .error .outOfBounds
        | some bs =>
            deserializeLoop buffer bufferSize cols (offset + 8)
              (row ++ [.double ⟨fromLE bs % 18446744073709551616, Nat.mod_lt _ (by decide)⟩])
  | (_, .STRING) :: cols, offset, row =>
      if offset + 4 > bufferSize then .ok (0, row)
      else
        match readBytes buffer offset 4 with
        | none => .error .outOfBounds
        | some lenBytes =>
            let len := fromLE lenBytes % 4294967296
            let offset1 := offset + 4
            if len > PAGE_SIZE ∨ offset1 + len > bufferSize then .ok (0, row)
            else
              match readBytes buffer offset1 len with
              | none => .error .outOfBounds
              | some s => deserializeLoop buffer bufferSize cols (offset1 + len) (row ++ [.string s])

/-- The method `FileManager::deserializeRow`; `none` is the null pointer, and
`row` the content of the out-parameter on entry.  The result is the returned
size and the out-parameter afterwards. -/
def deserializeRow (buffer : Option (List Byte)) (bufferSize : Nat) (schema : Schema)
    (row : Row) : Except Fault (Nat × Row) :=
  match buffer with
  | none => .ok (0, row)
  | some buf =>
      if bufferSize = 0 then .ok (0, row)
      else deserializeLoop buf bufferSize schema 0 []

/-- The content of the file behind the `std::fstream`. -/
abbrev File := List Byte

/-- The calls `file.seekp(pos)` and `file.write(bytes)` on a stream in the good
state: the bytes replace the file's content from `pos` on, the file growing as
needed (a gap between the old end and `pos` reads as zero bytes). -/
def pwrite (file : File) (pos : Nat) (bytes : List Byte) : File :=
  (file ++ List.replicate (pos - file.length) 0).take pos ++ bytes ++
    file.drop (pos + bytes.length)

/-- The byte offset of the slot of page `pageNum`, as `writePage` and
`readPage` compute it in `size_t` arithmetic. -/
def pageOffset (pageNum : Nat) : Nat :=
  (DATA_PAGE_OFFSET +
    ((pageNum + 18446744073709551616 - 1) % 18446744073709551616) *
      (PAGE_SIZE + SIZEOF_SIZE_T)) % 18446744073709551616

/-- The method `FileManager::writeHeader`. -/
def writeHeader (file : File) (pageCount : Nat) : File :=
  pwrite file 0 (toLE 4 pageCount)

/-- The method `FileManager::readHeader`, on a stream whose state has been
cleared: a read of fewer than four bytes fails and gives 0. -/
def readHeader (file : File) : Nat :=
  if 4 ≤ file.length then fromLE (file.take 4) else 0

/-- The method `FileManager::writePage`. -/
def writePage (file : File) (page : Page) (pageNum : Nat) : File :=
  let offset := pageOffset pageNum
  let file1 := pwrite file offset (toLE SIZEOF_SIZE_T page.used_bytes)
  pwrite file1 (offset + SIZEOF_SIZE_T) (page.data.take PAGE_SIZE)

/-- The method `FileManager::readPage`: `none` when it returns `false`, and the
page it filled otherwise.  `failed` is the stream's `failbit` on entry: a stream
that has failed neither seeks nor reads, and a read that comes up short sets the
bit, so the bit afterwards is set exactly when the result is `none`. -/
def readPage (file : File) (failed : Bool) (pageNum : Nat) : Option Page :=
  let offset := pageOffset pageNum
  if failed then none
  else if offset + SIZEOF_SIZE_T > file.length then none
  else if offset + SIZEOF_SIZE_T + PAGE_SIZE > file.length then none
  else
    some { data := (file.drop (offset + SIZEOF_SIZE_T)).take PAGE_SIZE,
           used_bytes := fromLE ((file.drop offset).take SIZEOF_SIZE_T) }

/-- The local variables of `FileManager::write` together with the file. -/
structure WriteState where
  file : File
  currentPage : Page
  tempBuffer : List Byte
  pageCount : Nat
  deriving DecidableEq, Repr

/-- One iteration of the `for` loop of `FileManager::write`. -/
def writeStep (st : WriteState) (row : Row) : WriteState :=
  let r := serializeRow row (some st.tempBuffer) PAGE_SIZE
  let rowSize := r.1
  let tempBuffer := r.2.getD st.tempBuffer
  if rowSize = 0 then { st with tempBuffer := tempBuffer }
  else
    let st1 : WriteState :=
      if !st.currentPage.hasSpace rowSize then
        let pageCount := (st.pageCount + 1) % 4294967296
        { file := writePage st.file st.currentPage pageCount
          currentPage := st.currentPage.clear
          tempBuffer := tempBuffer
          pageCount := pageCount }
      else { st with tempBuffer := tempBuffer }
    { st1 with
      currentPage :=
        { data := memcpy st1.currentPage.data st1.currentPage.used_bytes
            (tempBuffer.take rowSize)
          used_bytes := st1.currentPage.used_bytes + rowSize } }

/-- The code of `FileManager::write` after its loop: seal the working page if
it holds bytes, then write the header. -/
def writeFinish (st : WriteState) : File :=
  if st.currentPage.used_bytes > 0 then
    let pageCount := (st.pageCount + 1) % 4294967296
    writeHeader (writePage st.file st.currentPage pageCount) pageCount
  else writeHeader st.file st.pageCount

/-- The method `FileManager::write` on a stream in the good state; `pageInit`
and `bufferInit` are the contents of the two local arrays, which the code does
not initialise. -/
def write (file : File) (tableData : TableData) (pageInit bufferInit : Nat → Byte) : File :=
  writeFinish
    (tableData.foldl writeStep
      { file := file
        currentPage := { data := uninitialised pageInit PAGE_SIZE, used_bytes := 0 }
        tempBuffer := uninitialised bufferInit PAGE_SIZE
        pageCount := 0 })

/-- The `while (offset < currentPage.used_bytes)` loop of `FileManager::read`,
with one unit of fuel per iteration. -/
def decodeRows (page : Page) (schema : Schema) :
    Nat → Nat → TableData → Except Fault TableData
  | 0, _, _ => .error .outOfFuel
  | fuel + 1, offset, tableData =>
      if offset < page.used_bytes then
        match deserializeRow (some (page.getReadPtr offset)) (page.used_bytes - offset)
            schema [] with
        | .error e => .error e
        | .ok (bytesRead, row) =>
            if bytesRead = 0 then .ok tableData
            else decodeRows page schema fuel (offset + bytesRead) (tableData ++ [row])
      else .ok tableData

/-- The `for (uint32_t pageNum = 1; pageNum <= pageCount; pageNum++)` loop of
`FileManager::read`, with one unit of fuel per iteration; `failed` is the
stream's `failbit`.  Every iteration of the inner loop consumes at least one of
the page's `used_bytes`, so the inner loop is given `used_bytes + 1` units. -/
def readPages (file : File) (schema : Schema) (pageCount : Nat) :
    Nat → Nat → Bool → TableData → Except Fault TableData
  | 0, _, _, _ => .error .outOfFuel
  | fuel + 1, pageNum, failed, tableData =>
      if pageNum ≤ pageCount then
        match readPage file failed pageNum with
        | none =>
            readPages file schema pageCount fuel ((pageNum + 1) % 4294967296) true tableData
        | some currentPage =>
            match decodeRows currentPage schema (currentPage.used_bytes + 1) 0 tableData with
            | .error e => .error e
            | .ok tableData1 =>
                readPages file schema pageCount fuel ((pageNum + 1) % 4294967296) false
                  tableData1
      else .ok tableData

/-- The method `FileManager::read`: the content of `tableData` on return, given
`fuel` iterations of the page loop.  The rows the container held on entry are
cleared first, so they are no input. -/
def read (fuel : Nat) (file : File) (schema : Schema) : Except Fault TableData :=
  let pageCount := readHeader file
  if pageCount = 0 then .ok []
  else readPages file schema pageCount fuel 1 false []

/-! ## The wire format, in the words of the specification -/

/-- The encoded form of one field: Integer as 4 raw bytes, Double as 8 raw
bytes, Text as a 4-byte length prefix followed by that many raw bytes. -/
def encodeField : Field → List Byte
  | .int v => toLE 4 v.val
  | .double v => toLE 8 v.val
  | .string s => toLE 4 s.length ++ s

/-- The encoded form of a row: its fields' encodings in column order. -/
def encodeRow : Row → List Byte
  | [] => []
  | f :: fs => encodeField f ++ encodeRow fs

/-- The number of bytes of a field's encoded form. -/
def fieldWireSize : Field → Nat
  | .int _ => 4
  | .double _ => 8
  | .string s => 4 + s.length

/-- The number of bytes a row serializes to. -/
def wireSize : Row → Nat
  | [] => 0
  | f :: fs => fieldWireSize f + wireSize fs

/-! ## The rows of `tests/test_rowstore.cpp` -/

/-- The schema `{{"id", INT}, {"name", STRING}, {"score", DOUBLE}}` of the unit
tests. -/
def testSchema : Schema :=
  [("id", .INT), ("name", .STRING), ("score", .DOUBLE)]

/-- The row `{1, "Alice", 95.5}`; the double is the pattern 0x4057E00000000000. -/
def rowAlice : Row :=
  [.int 1, .string [65, 108, 105, 99, 101], .double 4636420632005836800]

/-- The row `{2, "Bob", 85.0}`; the double is the pattern 0x4055400000000000. -/
def rowBob : Row :=
  [.int 2, .string [66, 111, 98], .double 4635681760191971328]

/-- The row `{"invalid", "Bob", 85.0}` of the rejected insert. -/
def rowInvalid : Row :=
  [.string [105, 110, 118, 97, 108, 105, 100], .string [66, 111, 98],
    .double 4635681760191971328]

/-- The predicate `std::get<int>(row[0]) == 2` of `test_update`. -/
def idIsTwo (row : Row) : Bool :=
  match row with
  | .int v :: _ => v == 2
  | _ => false

/-- The store of `test_update` after its two `insert` calls. -/
def storeAfterInserts : RowStore :=
  (((RowStore.new testSchema).insert rowAlice).2.insert rowBob).2

/-! ## Notions used in the statements and proofs -/

/-- Whether `updateWhere` commits at a row: the predicate holds and the
transformed row passes `validateRow`. -/
def commits (s : RowStore) (predicate : Row → Bool) (updateFunc : Row → Row) (row : Row) :
    Bool :=
  predicate row && s.validateRow (updateFunc row)

/-- The encoded forms of a sequence of rows, one after the other. -/
def encodeRows : TableData → List Byte
  | [] => []
  | row :: rows => encodeRow row ++ encodeRows rows

/-- A row whose encoded form has at least one byte and fits one page. -/
def encodable (row : Row) : Bool :=
  decide (1 ≤ wireSize row ∧ wireSize row ≤ PAGE_SIZE)

/-- The slot of page `n` of the file is complete and holds, in its used region,
exactly the encoded forms of `rows`. -/
def PageHolds (file : File) (n : Nat) (rows : TableData) : Prop :=
  ∃ page : Page, readPage file false n = some page ∧
    page.data.length = PAGE_SIZE ∧
    page.used_bytes = (encodeRows rows).length ∧
    page.used_bytes ≤ PAGE_SIZE ∧
    page.data.take page.used_bytes = encodeRows rows

/-- The invariant of the loop of `FileManager::write`: `groups` are the rows of
the pages sealed so far, in page order, and `pending` the rows in the working
page. -/
structure WriteInv (st : WriteState) (groups : List TableData) (pending : TableData) :
    Prop where
  count : st.pageCount = groups.length
  pages : ∀ (i : Nat) (g : TableData), groups[i]? = some g → PageHolds st.file (i + 1) g
  nonempty : ∀ g ∈ groups, g ≠ []
  dataLen : st.currentPage.data.length = PAGE_SIZE
  used : st.currentPage.used_bytes = (encodeRows pending).length
  usedLe : st.currentPage.used_bytes ≤ PAGE_SIZE
  content : st.currentPage.data.take st.currentPage.used_bytes = encodeRows pending
  bufLen : st.tempBuffer.length = PAGE_SIZE
  rowsOk : ∀ r ∈ groups.flatten ++ pending, encodable r = true

/-- Decidable equality of the results of the reading code. -/
instance instDecidableEqExceptFault {α : Type} [DecidableEq α] :
    DecidableEq (Except Fault α)
  | .ok a, .ok b =>
      if h : a = b then isTrue (by rw [h]) else isFalse (fun h2 => h (by cases h2; rfl))
  | .error a, .error b =>
      if h : a = b then isTrue (by rw [h]) else isFalse (fun h2 => h (by cases h2; rfl))
  | .ok _, .error _ => isFalse (fun h => by cases h)
  | .error _, .ok _ => isFalse (fun h => by cases h)

/-- An array that reads as zero bytes throughout. -/
def zeroInit : Nat → Byte := fun _ => 0

/-- A string of 2^32 + 1 zero bytes. -/
def hugeString : List Byte := List.replicate 4294967297 0

/-- A row whose only field is the string of 2^32 + 1 bytes. -/
def hugeRow : Row := [.string hugeString]

/-- A schema of one `STRING` column. -/
def textSchema : Schema := [("text", .STRING)]

/-- One call of a mutating method of `RowStore`, with its arguments. -/
inductive StoreCall where
  | insert (row : Row)
  | update (index : Nat) (newRow : Row)
  | updateWhere (predicate : Row → Bool) (updateFunc : Row → Row)
  | deleteRow (index : Nat)
  | deleteWhere (predicate : Row → Bool)

/-- The store after one call; the returned flag or count is dropped. -/
def StoreCall.run (s : RowStore) : StoreCall → RowStore
  | .insert row => (s.insert row).2
  | .update index newRow => (s.update index newRow).2
  | .updateWhere predicate updateFunc => (s.updateWhere predicate updateFunc).2
  | .deleteRow index => (s.deleteRow index).2
  | .deleteWhere predicate => (s.deleteWhere predicate).2

/-- The store after a finite sequence of calls, made in order. -/
def runCalls (s : RowStore) (calls : List StoreCall) : RowStore :=
  calls.foldl StoreCall.run s

/-- The call `tableData.clear()` on a vector. -/
def vectorClear (_tableData : TableData) : TableData := []

/-- The method `FileManager::read` with its out-parameter: `tableData` is what
the container holds on entry, and the result what it holds on return. -/
def readInto (fuel : Nat) (file : File) (schema : Schema) (tableData : TableData) :
    Except Fault TableData :=
  let tableData1 := vectorClear tableData
  let pageCount := readHeader file
  if pageCount = 0 then .ok tableData1
  else readPages file schema pageCount fuel 1 false tableData1

/-- A file of four bytes whose header holds 0xFFFFFFFF. -/
def maxHeaderFile : File := [255, 255, 255, 255]

/-- One write to the storage made by `FileManager::write`: a call of
`writePage` with its page number and page, or the call of `writeHeader` with
its count. -/
inductive StorageWrite where
  | pageSlot (pageNum : Nat) (page : Page)
  | header (pageCount : Nat)
  deriving DecidableEq, Repr

/-- The file after one storage write. -/
def StorageWrite.apply (file : File) : StorageWrite → File
  | .pageSlot pageNum page => writePage file page pageNum
  | .header pageCount => writeHeader file pageCount

/-- The storage writes of one iteration of the loop of `FileManager::write`, in
the order the iteration makes them (the branches are those of `writeStep`). -/
def writeStepWrites (st : WriteState) (row : Row) : List StorageWrite :=
  let r := serializeRow row (some st.tempBuffer) PAGE_SIZE
  let rowSize := r.1
  if rowSize = 0 then []
  else if !st.currentPage.hasSpace rowSize then
    let pageCount := (st.pageCount + 1) % 4294967296
    [.pageSlot pageCount st.currentPage]
  else []

/-- The storage writes of the code after the loop (the branches are those of
`writeFinish`). -/
def writeFinishWrites (st : WriteState) : List StorageWrite :=
  if st.currentPage.used_bytes > 0 then
    let pageCount := (st.pageCount + 1) % 4294967296
    [.pageSlot pageCount st.currentPage, .header pageCount]
  else [.header st.pageCount]

/-- The storage writes of `FileManager::write` from the state `st` on, over the
rows still to process. -/
def writeLoopWrites : WriteState → TableData → List StorageWrite
  | st, [] => writeFinishWrites st
  | st, row :: rest => writeStepWrites st row ++ writeLoopWrites (writeStep st row) rest

/-- The sequence of storage writes that `FileManager::write` performs. -/
def writeTrace (file : File) (tableData : TableData) (pageInit bufferInit : Nat → Byte) :
    List StorageWrite :=
  writeLoopWrites
    { file := file
      currentPage := { data := uninitialised pageInit PAGE_SIZE, used_bytes := 0 }
      tempBuffer := uninitialised bufferInit PAGE_SIZE
      pageCount := 0 } tableData

/-- The writes of the given pages to consecutive page slots, the first of them
to the slot of page `first`. -/
def slotWrites : Nat → List Page → List StorageWrite
  | _, [] => []
  | first, page :: pages => .pageSlot first page :: slotWrites (first + 1) pages

/-- The pages of the page-slot writes of a sequence of storage writes, in
order. -/
def sealedPages : List StorageWrite → List Page
  | [] => []
  | .pageSlot _ page :: rest => page :: sealedPages rest
  | .header _ :: rest => sealedPages rest

/-- The used region of a page: its first `used_bytes` bytes. -/
def Page.usedRegion (p : Page) : List Byte :=
  p.data.take p.used_bytes

/-- The size `serializeRow` returns for a row into a buffer of `PAGE_SIZE`
bytes (the content of the buffer has no part in it, `serializeRow_page`). -/
def serializedSize (row : Row) : Nat :=
  (serializeRow row (some (uninitialised zeroInit PAGE_SIZE)) PAGE_SIZE).1

/-- The bytes `serializeRow` leaves at the start of a buffer of `PAGE_SIZE`
bytes for a row, as many as the size it returns: the encoding of the row that
`write` copies into the page. -/
def serializedBytes (row : Row) : List Byte :=
  ((serializeRow row (some (uninitialised zeroInit PAGE_SIZE)) PAGE_SIZE).2.getD []).take
    (serializedSize row)

/-- The encodings that `write` copies for a sequence of rows, one after the
other. -/
def serializedBytesAll : TableData → List Byte
  | [] => []
  | row :: rows => serializedBytes row ++ serializedBytesAll rows

/-- A row of one string of 4092 bytes; its encoded form fills a page. -/
def fullRow : Row := [.string (List.replicate 4092 0)]

/-- A row that `write` does not skip: `serializeRow` into a buffer of
`PAGE_SIZE` bytes returns a non-zero size for it. -/
def codeEncodable (row : Row) : Bool :=
  decide (serializedSize row ≠ 0)

/-- The invariant of the working page in the loop of `FileManager::write`:
`pending` are the rows copied into it since it was last cleared. -/
structure PageInv (st : WriteState) (pending : TableData) : Prop where
  dataLen : st.currentPage.data.length = PAGE_SIZE
  used : st.currentPage.used_bytes = (serializedBytesAll pending).length
  usedLe : st.currentPage.used_bytes ≤ PAGE_SIZE
  content : st.currentPage.usedRegion = serializedBytesAll pending
  bufLen : st.tempBuffer.length = PAGE_SIZE
  rowsOk : ∀ r ∈ pending, serializedSize r ≠ 0

/-- The state in which `FileManager::write` enters its loop: an empty working
page, the page counter at 0, and the two local arrays as the stack left
them. -/
def writeStart (file : File) (pageInit bufferInit : Nat → Byte) : WriteState :=
  { file := file
    currentPage := { data := uninitialised pageInit PAGE_SIZE, used_bytes := 0 }
    tempBuffer := uninitialised bufferInit PAGE_SIZE
    pageCount := 0 }

/-- A table of 2^32 + 1 rows, each filling a page. -/
def manyFullRows : TableData := List.replicate 4294967297 fullRow

/-! ## table.cpp -/

/-- The class `Table`: the file behind its stream, its schema and its row
store (the file name and the stateless `FileManager` carry no data of the
model). -/
structure Table where
  file : File
  schema : Schema
  rowStore : RowStore
  deriving DecidableEq, Repr

/-- The constructor `Table::Table`: the row store is constructed from the same
schema. -/
def Table.new (file : File) (schema : Schema) : Table :=
  { file := file, schema := schema, rowStore := RowStore.new schema }

/-- The method `Table::load`: `fileManager.read` into a local `tempData`, then
`rowStore.loadData(tempData)`. -/
def Table.load (fuel : Nat) (t : Table) : Except Fault Table :=
  match read fuel t.file t.schema with
  | .error e => .error e
  | .ok tempData => .ok { t with rowStore := t.rowStore.loadData tempData }

/-- The method `Table::flush`: `fileManager.write` of the row store's rows. -/
def Table.flush (t : Table) (pageInit bufferInit : Nat → Byte) : Table :=
  { t with file := write t.file t.rowStore.table_data pageInit bufferInit }

/-- What the rows returned by `read` satisfy: exact conformance to the schema,
and no string longer than `PAGE_SIZE` bytes. -/
def ReadRowOk (schema : Schema) (row : Row) : Prop :=
  conforms schema row ∧ ∀ s, Field.string s ∈ row → s.length ≤ PAGE_SIZE

/-- The arguments of the `deserializeRow` calls that the `while` loop of
`FileManager::read` makes on one page, in order: for each call the offset given
to `getReadPtr` and the `bufferSize`.  The list ends with the call after which
the loop is left. -/
def decodeCalls (page : Page) (schema : Schema) : Nat → Nat → List (Nat × Nat)
  | 0, _ => []
  | fuel + 1, offset =>
      if offset < page.used_bytes then
        (offset, page.used_bytes - offset) ::
          match deserializeRow (some (page.getReadPtr offset)) (page.used_bytes - offset)
              schema [] with
          | .error _ => []
          | .ok (bytesRead, _) =>
              if bytesRead = 0 then [] else decodeCalls page schema fuel (offset + bytesRead)
      else []

/-- A page image whose used-length field says 5000: the data area begins with
the length prefix 4096 of a string and is zero from there on. -/
def overlongPage : Page :=
  { data := toLE 4 4096 ++ List.replicate 4092 0, used_bytes := 5000 }

/-- A file of one page slot holding `overlongPage`, with the header 1. -/
def overlongFile : File :=
  writeHeader (writePage [] overlongPage 1) 1

/-! ## Theorems -/

/-! ### Validation -/

theorem conforms_iff_positional (schema : Schema) (row : Row) :
    conforms schema row ↔
      row.length = schema.length ∧
        ∀ (i : Nat) (f : Field) (c : String × SupportedTypes),
          row[i]? = some f → schema[i]? = some c → f.runtimeType = c.2 := by
  unfold conforms
  induction row generalizing schema with
  | nil =>
    cases schema with
    | nil => simp
    | cons c cs => simp
  | cons f fs ih =>
    cases schema with
    | nil => simp
    | cons c cs =>
      simp only [List.length_cons, Nat.add_right_cancel_iff, List.map_cons, List.cons.injEq]
      rw [ih cs]
      constructor
      · rintro ⟨h0, hl, h⟩
        refine ⟨hl, ?_⟩
        intro i f1 c1 h1 h2
        cases i with
        | zero =>
          simp only [List.getElem?_cons_zero, Option.some.injEq] at h1 h2
          subst h1 h2
          exact h0
        | succ j => exact h j f1 c1 (by simpa using h1) (by simpa using h2)
      · rintro ⟨hl, h⟩
        refine ⟨h 0 f c (by simp) (by simp), hl, ?_⟩
        intro i f1 c1 h1 h2
        exact h (i + 1) f1 c1 (by simpa using h1) (by simpa using h2)

theorem validateSwitch_eq_true (t : SupportedTypes) (field : Field) :
    validateSwitch t field = true ↔ t = .STRING ∧ holdsString field = true := by
  cases t <;> cases field <;> simp [validateSwitch, holdsInt, holdsDouble, holdsString]

theorem validateLoop_eq_true (schema : Schema) (row : Row)
    (hl : row.length = schema.length) :
    validateLoop schema row = true ↔
      ∀ (i : Nat) (f : Field) (c : String × SupportedTypes),
        row[i]? = some f → schema[i]? = some c → c.2 = .STRING ∧ holdsString f = true := by
  induction schema generalizing row with
  | nil => simp [validateLoop]
  | cons c cs ih =>
    cases row with
    | nil => simp at hl
    | cons f fs =>
      have hl2 : fs.length = cs.length := by simpa using hl
      simp only [validateLoop, Bool.if_false_right, Bool.and_eq_true, ih fs hl2,
        validateSwitch_eq_true, decide_eq_true_eq]
      constructor
      · rintro ⟨h0, h⟩ i f1 c1 h1 h2
        cases i with
        | zero =>
          simp only [List.getElem?_cons_zero, Option.some.injEq] at h1 h2
          subst h1 h2
          exact h0
        | succ j => exact h j f1 c1 (by simpa using h1) (by simpa using h2)
      · intro h
        refine ⟨h 0 f c (by simp) (by simp), ?_⟩
        intro i f1 c1 h1 h2
        exact h (i + 1) f1 c1 (by simpa using h1) (by simpa using h2)

theorem holdsString_runtimeType (f : Field) :
    holdsString f = true ↔ f.runtimeType = .STRING := by
  cases f <;> simp [holdsString, Field.runtimeType]

/-- What `validateRow` computes: it accepts exactly the rows of the schema's
length under a schema whose columns at the row's positions are all `STRING`,
with a string in every field. -/
theorem validateRow_eq_true (s : RowStore) (row : Row) :
    s.validateRow row = true ↔
      row.length = s.schema.length ∧
        ∀ (i : Nat) (f : Field) (c : String × SupportedTypes),
          row[i]? = some f → s.schema[i]? = some c →
            c.2 = .STRING ∧ f.runtimeType = .STRING := by
  unfold RowStore.validateRow
  by_cases hl : row.length = s.schema.length
  · simp only [hl, ne_eq, not_true_eq_false, if_false, true_and]
    rw [validateLoop_eq_true s.schema row hl]
    simp only [holdsString_runtimeType]
  · simp [hl]

theorem validateRow_conforms (s : RowStore) (row : Row) (h : s.validateRow row = true) :
    conforms s.schema row := by
  rw [validateRow_eq_true] at h
  rw [conforms_iff_positional]
  refine ⟨h.1, ?_⟩
  intro i f c h1 h2
  obtain ⟨hc, hf⟩ := h.2 i f c h1 h2
  rw [hc, hf]

/-- C2: under the schema `[INT, STRING, DOUBLE]` of `test_insert` the row
`(1, "Alice", 95.5)` conforms to the schema position by position, and
`validateRow`, hence `insert`, returns `false` on it: the `switch` falls through
from `case INT` into the `double` and `string` tests. -/
theorem validateRow_rejects_conforming_row :
    conforms testSchema rowAlice ∧
      (RowStore.new testSchema).validateRow rowAlice = false ∧
      ((RowStore.new testSchema).insert rowAlice).1 = false := by
  decide

/-- C3: a row whose length differs from the schema's, or that has at some
position a runtime type other than the declared one, is rejected by `insert`,
which returns `false` and leaves the store (rows and `rowCount`) as it was. -/
theorem insert_rejects_nonconforming (s : RowStore) (row : Row)
    (h : row.length ≠ s.schema.length ∨
      ∃ (i : Nat) (f : Field) (c : String × SupportedTypes),
        row[i]? = some f ∧ s.schema[i]? = some c ∧ f.runtimeType ≠ c.2) :
    (s.insert row).1 = false ∧ (s.insert row).2 = s ∧
      (s.insert row).2.rowCount = s.rowCount := by
  have hv : s.validateRow row = false := by
    cases hb : s.validateRow row with
    | false => rfl
    | true =>
      have hc := (conforms_iff_positional s.schema row).mp (validateRow_conforms s row hb)
      rcases h with h | ⟨i, f, c, h1, h2, h3⟩
      · exact absurd hc.1 h
      · exact absurd (hc.2 i f c h1 h2) h3
  simp [RowStore.insert, hv]

theorem insert_rejects_nonconforming_witness :
    ((RowStore.new testSchema).insert rowInvalid).1 = false ∧
      ((RowStore.new testSchema).insert rowInvalid).2 = RowStore.new testSchema ∧
      ((RowStore.new testSchema).insert rowInvalid).2.rowCount =
        (RowStore.new testSchema).rowCount :=
  insert_rejects_nonconforming (RowStore.new testSchema) rowInvalid
    (Or.inr ⟨0, .string [105, 110, 118, 97, 108, 105, 100], ("id", .INT),
      by decide, by decide, by decide⟩)

/-- C6: `deleteWhere(p)` returns the number of stored rows satisfying `p`, and
leaves the stored sequence filtered by not-`p` (survivors in their original
relative order); the schema is untouched. -/
theorem deleteWhere_count_and_filter (s : RowStore) (p : Row → Bool) :
    (s.deleteWhere p).1 = s.table_data.countP p ∧
      (s.deleteWhere p).2.table_data = s.table_data.filter (fun row => !p row) ∧
      (s.deleteWhere p).2.schema = s.schema := by
  refine ⟨?_, rfl, rfl⟩
  have h := List.length_eq_countP_add_countP p s.table_data
  have h2 : (s.table_data.filter (fun row => !p row)).length =
      s.table_data.countP (fun row => !p row) := by
    rw [List.countP_eq_length_filter]
  simp only [RowStore.deleteWhere, h2]
  have h3 : List.countP (fun row => !p row) s.table_data =
      List.countP (fun a => decide ¬p a = true) s.table_data := by
    congr 1
    funext a
    cases p a <;> simp
  omega

theorem updateWhereLoop_spec (s : RowStore) (p : Row → Bool) (f : Row → Row)
    (rows : TableData) (k : Nat) :
    (updateWhereLoop s p f rows k).1 = k + rows.countP (commits s p f) ∧
      (updateWhereLoop s p f rows k).2 =
        rows.map (fun old => if commits s p f old then f old else old) := by
  induction rows generalizing k with
  | nil => simp [updateWhereLoop]
  | cons row rest ih =>
    unfold updateWhereLoop
    by_cases hp : p row = true
    · by_cases hv : s.validateRow (f row) = true
      · have hc : commits s p f row = true := by simp [commits, hp, hv]
        simp only [hp, hv, if_true, ih, List.countP_cons, hc, List.map_cons]
        refine ⟨by omega, trivial⟩
      · have hc : commits s p f row = false := by simp [commits, hv]
        simp only [hp, hv, if_true, ih, List.countP_cons, hc, List.map_cons]
        simp
    · have hc : commits s p f row = false := by simp [commits, hp]
      simp only [hp, ih, List.countP_cons, hc, List.map_cons]
      simp

/-- C7: `updateWhere(p, f)` keeps the length; the row at every position is
`f(old)` when `p(old)` holds and `f(old)` passes `validateRow`, and the old row
otherwise; the returned count is the number of positions committed, which is
not the number of rows matched by `p`. -/
theorem updateWhere_commits_per_row (s : RowStore) (p : Row → Bool) (f : Row → Row) :
    (s.updateWhere p f).2.table_data.length = s.table_data.length ∧
      (∀ i : Nat, (s.updateWhere p f).2.table_data[i]? =
        (s.table_data[i]?).map
          (fun old => if p old = true ∧ s.validateRow (f old) = true then f old else old)) ∧
      (s.updateWhere p f).1 =
        s.table_data.countP (fun old => p old && s.validateRow (f old)) ∧
      (s.updateWhere p f).2.schema = s.schema := by
  have h := updateWhereLoop_spec s p f s.table_data 0
  refine ⟨?_, ?_, ?_, rfl⟩
  · simp [RowStore.updateWhere, h.2]
  · intro i
    simp only [RowStore.updateWhere, h.2, List.getElem?_map]
    congr 1
    funext old
    simp [commits]
  · simp only [RowStore.updateWhere, h.1, Nat.zero_add]
    rfl

/-- C8: under the schema `[INT, STRING, DOUBLE]` of `test_update`, both
`insert` calls of the test return `false`, the store stays empty, and
`updateWhere` with the test's predicate returns 0 whatever the transform is;
and on a store holding the two rows the transform that returns its argument,
which conforms to the schema, is committed at no row. -/
theorem updateWhere_returns_zero_in_test_update :
    ((RowStore.new testSchema).insert rowAlice).1 = false ∧
      storeAfterInserts.rowCount = 0 ∧
      (∀ f : Row → Row, (storeAfterInserts.updateWhere idIsTwo f).1 = 0) ∧
      conforms testSchema rowBob ∧
      (((RowStore.new testSchema).loadData [rowAlice, rowBob]).updateWhere
        idIsTwo (fun row => row)).1 = 0 := by
  refine ⟨by decide, by decide, ?_, by decide, by decide⟩
  intro f
  have h : storeAfterInserts.table_data = [] := by decide
  simp [RowStore.updateWhere, h, updateWhereLoop]

/-- C9: `update(index, newRow)` returns `false` and leaves the store as it was
when `index >= rowCount` or `newRow` fails `validateRow`; otherwise it returns
`true`, the row at `index` is `newRow`, and every other position, the length and
the schema are as before. -/
theorem update_checked_and_atomic (s : RowStore) (index : Nat) (newRow : Row) :
    (index ≥ s.rowCount ∨ s.validateRow newRow = false →
        s.update index newRow = (false, s)) ∧
      (index < s.rowCount ∧ s.validateRow newRow = true →
        (s.update index newRow).1 = true ∧
        (s.update index newRow).2.table_data[index]? = some newRow ∧
        (∀ j : Nat, j ≠ index →
          (s.update index newRow).2.table_data[j]? = s.table_data[j]?) ∧
        (s.update index newRow).2.rowCount = s.rowCount ∧
        (s.update index newRow).2.schema = s.schema) := by
  constructor
  · rintro (h | h)
    · have h2 : s.table_data.length ≤ index := h
      simp [RowStore.update, h2]
    · simp [RowStore.update, h]
  · rintro ⟨h1, h2⟩
    have h3 : ¬ s.table_data.length ≤ index := by
      simp only [RowStore.rowCount] at h1
      omega
    have h4 : index < s.table_data.length := by omega
    simp only [RowStore.update, ge_iff_le, h3, if_false, h2, Bool.not_true,
      Bool.false_eq_true, RowStore.rowCount, List.length_set, true_and, and_true]
    refine ⟨?_, ?_⟩
    · simp [List.getElem?_set, h4]
    · intro j hj
      rw [List.getElem?_set_ne (Ne.symm hj)]

/-- C10: `deleteRow(index)` returns `false` and leaves the store as it was when
`index >= rowCount`; otherwise it returns `true`, the length drops by exactly
one, positions below `index` are unchanged and every position `j >= index`
holds the row that was at `j + 1`. -/
theorem deleteRow_checked_shift (s : RowStore) (index : Nat) :
    (index ≥ s.rowCount → s.deleteRow index = (false, s)) ∧
      (index < s.rowCount →
        (s.deleteRow index).1 = true ∧
        (s.deleteRow index).2.rowCount + 1 = s.rowCount ∧
        (∀ j : Nat, j < index →
          (s.deleteRow index).2.table_data[j]? = s.table_data[j]?) ∧
        (∀ j : Nat, j ≥ index →
          (s.deleteRow index).2.table_data[j]? = s.table_data[j + 1]?) ∧
        (s.deleteRow index).2.schema = s.schema) := by
  constructor
  · intro h
    have h2 : s.table_data.length ≤ index := h
    simp [RowStore.deleteRow, h2]
  · intro h1
    have h3 : ¬ s.table_data.length ≤ index := by
      simp only [RowStore.rowCount] at h1
      omega
    have h4 : index < s.table_data.length := by omega
    simp only [RowStore.deleteRow, ge_iff_le, h3, if_false, RowStore.rowCount, true_and,
      and_true]
    refine ⟨?_, ?_, ?_⟩
    · rw [List.length_eraseIdx]
      simp only [h4, if_true]
      omega
    · intro j hj
      rw [List.getElem?_eraseIdx]
      simp [hj]
    · intro j hj
      rw [List.getElem?_eraseIdx]
      have : ¬ j < index := by omega
      simp [this]

/-! ### Scalars and memory -/

theorem toLE_length (n v : Nat) : (toLE n v).length = n := by
  induction n generalizing v with
  | zero => rfl
  | succ k ih => simp [toLE, ih]

theorem fromLE_toLE (n v : Nat) : fromLE (toLE n v) = v % 256 ^ n := by
  induction n generalizing v with
  | zero => simp [toLE, fromLE, Nat.mod_one]
  | succ k ih =>
    simp only [toLE, fromLE, ih]
    rw [pow_succ, Nat.mul_comm (256 ^ k) 256, Nat.mod_mul]

theorem fromLE_toLE_four (v : Nat) (h : v < 4294967296) : fromLE (toLE 4 v) = v := by
  rw [fromLE_toLE]
  exact Nat.mod_eq_of_lt (by norm_num; exact h)

theorem fromLE_toLE_eight (v : Nat) (h : v < 18446744073709551616) :
    fromLE (toLE 8 v) = v := by
  rw [fromLE_toLE]
  exact Nat.mod_eq_of_lt (by norm_num; exact h)

theorem memcpy_length (dst src : List Byte) (offset : Nat)
    (h : offset + src.length ≤ dst.length) :
    (memcpy dst offset src).length = dst.length := by
  simp only [memcpy, List.length_append, List.length_take, List.length_drop]
  omega

theorem memcpy_take (dst src : List Byte) (offset : Nat) (h : offset ≤ dst.length) :
    (memcpy dst offset src).take (offset + src.length) = dst.take offset ++ src := by
  have hl : (dst.take offset ++ src).length = offset + src.length := by
    simp only [List.length_append, List.length_take]
    omega
  unfold memcpy
  rw [← hl, List.take_left]

theorem memcpy_take_le (dst src : List Byte) (offset k : Nat) (h : offset ≤ dst.length)
    (hk : k ≤ offset) : (memcpy dst offset src).take k = dst.take k := by
  unfold memcpy
  rw [List.append_assoc, List.take_append_of_le_length (by simp; omega), List.take_take]
  congr 1
  omega

theorem uninitialised_length (g : Nat → Byte) (n : Nat) : (uninitialised g n).length = n := by
  simp [uninitialised]

/-! ### serializeRow -/

theorem encodeField_length (f : Field) : (encodeField f).length = fieldWireSize f := by
  cases f <;> simp [encodeField, fieldWireSize, toLE_length]

theorem encodeRow_length (row : Row) : (encodeRow row).length = wireSize row := by
  induction row with
  | nil => rfl
  | cons f fs ih => simp [encodeRow, wireSize, encodeField_length, ih]

theorem wireSize_string_le (row : Row) (s : List Byte) (h : Field.string s ∈ row) :
    4 + s.length ≤ wireSize row := by
  induction row with
  | nil => simp at h
  | cons f fs ih =>
    simp only [List.mem_cons] at h
    rcases h with h | h
    · subst h
      simp [wireSize, fieldWireSize]
    · have := ih h
      simp only [wireSize]
      omega

theorem fieldWireSize_pos (f : Field) : 4 ≤ fieldWireSize f := by
  cases f <;> simp [fieldWireSize]

theorem wireSize_pos (row : Row) (h : row ≠ []) : 1 ≤ wireSize row := by
  cases row with
  | nil => exact absurd rfl h
  | cons f fs =>
    have := fieldWireSize_pos f
    simp only [wireSize]
    omega

theorem serializeLoop_length (bufferSize : Nat) (row : Row) :
    ∀ (offset : Nat) (buffer : List Byte), bufferSize ≤ buffer.length →
      (serializeLoop bufferSize row offset buffer).2.length = buffer.length := by
  induction row with
  | nil => intro offset buffer _; rfl
  | cons f fs ih =>
    intro offset buffer hb
    cases f with
    | int v =>
      simp only [serializeLoop]
      split
      · rfl
      · have hm : (memcpy buffer offset (toLE 4 v.val)).length = buffer.length :=
          memcpy_length _ _ _ (by rw [toLE_length]; omega)
        rw [ih _ _ (by rw [hm]; exact hb), hm]
    | double v =>
      simp only [serializeLoop]
      split
      · rfl
      · have hm : (memcpy buffer offset (toLE 8 v.val)).length = buffer.length :=
          memcpy_length _ _ _ (by rw [toLE_length]; omega)
        rw [ih _ _ (by rw [hm]; exact hb), hm]
    | string s =>
      simp only [serializeLoop]
      split
      · rfl
      · rename_i hc
        have hlen : s.length % 4294967296 ≤ s.length := Nat.mod_le _ _
        have hm1 : (memcpy buffer offset (toLE 4 (s.length % 4294967296))).length =
            buffer.length := memcpy_length _ _ _ (by rw [toLE_length]; omega)
        have hm2 : (memcpy (memcpy buffer offset (toLE 4 (s.length % 4294967296)))
            (offset + 4) (s.take (s.length % 4294967296))).length = buffer.length := by
          rw [memcpy_length _ _ _ (by rw [hm1, List.length_take]; omega), hm1]
        rw [ih _ _ (by rw [hm2]; exact hb), hm2]

theorem serializeLoop_ok (bufferSize : Nat) (row : Row) :
    ∀ (offset : Nat) (buffer : List Byte),
      offset + wireSize row ≤ bufferSize → bufferSize ≤ buffer.length →
      (∀ s, Field.string s ∈ row → s.length ≤ PAGE_SIZE) →
      (serializeLoop bufferSize row offset buffer).1 = offset + wireSize row ∧
        (serializeLoop bufferSize row offset buffer).2.take (offset + wireSize row) =
          buffer.take offset ++ encodeRow row := by
  induction row with
  | nil =>
    intro offset buffer _ _ _
    simp [serializeLoop, wireSize, encodeRow]
  | cons f fs ih =>
    intro offset buffer hfit hb hstr
    have hstr2 : ∀ s, Field.string s ∈ fs → s.length ≤ PAGE_SIZE :=
      fun s hs => hstr s (List.mem_cons_of_mem _ hs)
    cases f with
    | int v =>
      simp only [wireSize, fieldWireSize] at hfit
      have hc : ¬ offset + 4 > bufferSize := by omega
      have hm : (memcpy buffer offset (toLE 4 v.val)).length = buffer.length :=
        memcpy_length _ _ _ (by rw [toLE_length]; omega)
      obtain ⟨h1, h2⟩ := ih (offset + 4) (memcpy buffer offset (toLE 4 v.val))
        (by omega) (by rw [hm]; exact hb) hstr2
      simp only [serializeLoop, hc, if_false, wireSize, fieldWireSize, encodeRow, encodeField]
      refine ⟨by rw [h1]; omega, ?_⟩
      have h3 := memcpy_take buffer (toLE 4 v.val) offset (by omega)
      rw [toLE_length] at h3
      rw [show offset + (4 + wireSize fs) = offset + 4 + wireSize fs by omega, h2, h3,
        List.append_assoc]
    | double v =>
      simp only [wireSize, fieldWireSize] at hfit
      have hc : ¬ offset + 8 > bufferSize := by omega
      have hm : (memcpy buffer offset (toLE 8 v.val)).length = buffer.length :=
        memcpy_length _ _ _ (by rw [toLE_length]; omega)
      obtain ⟨h1, h2⟩ := ih (offset + 8) (memcpy buffer offset (toLE 8 v.val))
        (by omega) (by rw [hm]; exact hb) hstr2
      simp only [serializeLoop, hc, if_false, wireSize, fieldWireSize, encodeRow, encodeField]
      refine ⟨by rw [h1]; omega, ?_⟩
      have h3 := memcpy_take buffer (toLE 8 v.val) offset (by omega)
      rw [toLE_length] at h3
      rw [show offset + (8 + wireSize fs) = offset + 8 + wireSize fs by omega, h2, h3,
        List.append_assoc]
    | string s =>
      simp only [wireSize, fieldWireSize] at hfit
      have hs : s.length ≤ PAGE_SIZE := hstr s (List.mem_cons_self _ _)
      have hlen : s.length % 4294967296 = s.length :=
        Nat.mod_eq_of_lt (by simp only [PAGE_SIZE] at hs; omega)
      have hc : ¬ (s.length > PAGE_SIZE ∨ offset + 4 + s.length > bufferSize) := by omega
      have hm1 : (memcpy buffer offset (toLE 4 s.length)).length = buffer.length :=
        memcpy_length _ _ _ (by rw [toLE_length]; omega)
      have hm2 : (memcpy (memcpy buffer offset (toLE 4 s.length)) (offset + 4) s).length =
          buffer.length := by
        rw [memcpy_length _ _ _ (by rw [hm1]; omega), hm1]
      obtain ⟨h1, h2⟩ := ih (offset + 4 + s.length)
        (memcpy (memcpy buffer offset (toLE 4 s.length)) (offset + 4) s)
        (by omega) (by rw [hm2]; exact hb) hstr2
      simp only [serializeLoop, hlen, hc, if_false, List.take_length, wireSize, fieldWireSize,
        encodeRow, encodeField]
      refine ⟨by rw [h1]; omega, ?_⟩
      have h3 := memcpy_take (memcpy buffer offset (toLE 4 s.length)) s (offset + 4)
        (by rw [hm1]; omega)
      have h4 := memcpy_take buffer (toLE 4 s.length) offset (by omega)
      rw [toLE_length] at h4
      rw [show offset + (4 + s.length + wireSize fs) = offset + 4 + s.length + wireSize fs
        by omega, h2, h3, h4]
      simp only [List.append_assoc]

theorem serializeLoop_fail (bufferSize : Nat) (row : Row) :
    ∀ (offset : Nat) (buffer : List Byte),
      offset ≤ bufferSize → bufferSize < offset + wireSize row →
      (∀ s, Field.string s ∈ row → s.length < 4294967296) →
      (serializeLoop bufferSize row offset buffer).1 = 0 := by
  induction row with
  | nil =>
    intro offset buffer h1 h2 _
    simp only [wireSize] at h2
    omega
  | cons f fs ih =>
    intro offset buffer hle hfit hstr
    have hstr2 : ∀ s, Field.string s ∈ fs → s.length < 4294967296 :=
      fun s hs => hstr s (List.mem_cons_of_mem _ hs)
    cases f with
    | int v =>
      simp only [wireSize, fieldWireSize] at hfit
      simp only [serializeLoop]
      split
      · rfl
      · exact ih _ _ (by omega) (by omega) hstr2
    | double v =>
      simp only [wireSize, fieldWireSize] at hfit
      simp only [serializeLoop]
      split
      · rfl
      · exact ih _ _ (by omega) (by omega) hstr2
    | string s =>
      simp only [wireSize, fieldWireSize] at hfit
      have hlen : s.length % 4294967296 = s.length :=
        Nat.mod_eq_of_lt (hstr s (List.mem_cons_self _ _))
      simp only [serializeLoop, hlen]
      split
      · rfl
      · exact ih _ _ (by omega) (by omega) hstr2

/-! ### deserializeRow -/

theorem readBytes_of_drop (buffer x rest : List Byte) (offset : Nat)
    (h : buffer.drop offset = x ++ rest) (hb : offset + x.length ≤ buffer.length) :
    readBytes buffer offset x.length = some x := by
  simp only [readBytes, hb, if_true, h, List.take_left]

theorem drop_advance (buffer x rest : List Byte) (offset : Nat)
    (h : buffer.drop offset = x ++ rest) : buffer.drop (offset + x.length) = rest := by
  rw [← List.drop_drop, h, List.drop_left]

theorem deserializeLoop_ok (buffer : List Byte) (bufferSize : Nat) (row : Row) :
    ∀ (cols : Schema) (offset : Nat) (acc : Row) (tail : List Byte),
      row.map Field.runtimeType = cols.map Prod.snd →
      buffer.drop offset = encodeRow row ++ tail →
      offset + wireSize row ≤ bufferSize → bufferSize ≤ buffer.length →
      (∀ s, Field.string s ∈ row → s.length ≤ PAGE_SIZE) →
      deserializeLoop buffer bufferSize cols offset acc =
        .ok (offset + wireSize row, acc ++ row) := by
  induction row with
  | nil =>
    intro cols offset acc tail hty _ _ _ _
    cases cols with
    | nil => simp [deserializeLoop, wireSize]
    | cons c cs => simp at hty
  | cons f fs ih =>
    intro cols offset acc tail hty hdrop hfit hb hstr
    have hstr2 : ∀ s, Field.string s ∈ fs → s.length ≤ PAGE_SIZE :=
      fun s hs => hstr s (List.mem_cons_of_mem _ hs)
    cases cols with
    | nil => simp at hty
    | cons c cs =>
      obtain ⟨name, ty⟩ := c
      simp only [List.map_cons, List.cons.injEq] at hty
      obtain ⟨hty1, hty2⟩ := hty
      cases f with
      | int v =>
        simp only [Field.runtimeType] at hty1
        subst hty1
        simp only [wireSize, fieldWireSize] at hfit
        simp only [encodeRow, encodeField, List.append_assoc] at hdrop
        have hc : ¬ offset + 4 > bufferSize := by omega
        have hr := readBytes_of_drop buffer (toLE 4 v.val) _ offset hdrop
          (by rw [toLE_length]; omega)
        have hd := drop_advance buffer (toLE 4 v.val) _ offset hdrop
        rw [toLE_length] at hr hd
        have hv : (⟨fromLE (toLE 4 v.val) % 4294967296, Nat.mod_lt _ (by decide)⟩ :
            Fin 4294967296) = v := by
          apply Fin.ext
          simp only [fromLE_toLE_four v.val v.isLt]
          exact Nat.mod_eq_of_lt v.isLt
        simp only [deserializeLoop, hc, if_false, hr, hv]
        rw [ih cs (offset + 4) _ tail hty2 hd (by omega) hb hstr2]
        simp only [wireSize, fieldWireSize, List.append_assoc, List.singleton_append]
        congr 2
        omega
      | double v =>
        simp only [Field.runtimeType] at hty1
        subst hty1
        simp only [wireSize, fieldWireSize] at hfit
        simp only [encodeRow, encodeField, List.append_assoc] at hdrop
        have hc : ¬ offset + 8 > bufferSize := by omega
        have hr := readBytes_of_drop buffer (toLE 8 v.val) _ offset hdrop
          (by rw [toLE_length]; omega)
        have hd := drop_advance buffer (toLE 8 v.val) _ offset hdrop
        rw [toLE_length] at hr hd
        have hv : (⟨fromLE (toLE 8 v.val) % 18446744073709551616,
            Nat.mod_lt _ (by decide)⟩ : Fin 18446744073709551616) = v := by
          apply Fin.ext
          simp only [fromLE_toLE_eight v.val v.isLt]
          exact Nat.mod_eq_of_lt v.isLt
        simp only [deserializeLoop, hc, if_false, hr, hv]
        rw [ih cs (offset + 8) _ tail hty2 hd (by omega) hb hstr2]
        simp only [wireSize, fieldWireSize, List.append_assoc, List.singleton_append]
        congr 2
        omega
      | string s =>
        simp only [Field.runtimeType] at hty1
        subst hty1
        simp only [wireSize, fieldWireSize] at hfit
        simp only [encodeRow, encodeField, List.append_assoc] at hdrop
        have hs : s.length ≤ PAGE_SIZE := hstr s (List.mem_cons_self _ _)
        have hs2 : s.length < 4294967296 := by simp only [PAGE_SIZE] at hs; omega
        have hc : ¬ offset + 4 > bufferSize := by omega
        have hr := readBytes_of_drop buffer (toLE 4 s.length) _ offset hdrop
          (by rw [toLE_length]; omega)
        have hd := drop_advance buffer (toLE 4 s.length) _ offset hdrop
        rw [toLE_length] at hr hd
        have hlen : fromLE (toLE 4 s.length) % 4294967296 = s.length := by
          rw [fromLE_toLE_four s.length hs2]
          exact Nat.mod_eq_of_lt hs2
        have hc2 : ¬ (s.length > PAGE_SIZE ∨ offset + 4 + s.length > bufferSize) := by omega
        have hr2 := readBytes_of_drop buffer s _ (offset + 4) hd (by omega)
        have hd2 := drop_advance buffer s _ (offset + 4) hd
        simp only [deserializeLoop, hc, if_false, hr, hlen, hc2, hr2]
        rw [ih cs (offset + 4 + s.length) _ tail hty2 hd2 (by omega) hb hstr2]
        simp only [wireSize, fieldWireSize, List.append_assoc, List.singleton_append]
        congr 2
        omega

/-! ### Decoding one page -/

theorem encodeRows_append (a b : TableData) :
    encodeRows (a ++ b) = encodeRows a ++ encodeRows b := by
  induction a with
  | nil => rfl
  | cons r rs ih => simp [encodeRows, ih]

theorem encodeRows_length_ge (rows : TableData)
    (h : ∀ r ∈ rows, 1 ≤ wireSize r) : rows.length ≤ (encodeRows rows).length := by
  induction rows with
  | nil => simp
  | cons r rs ih =>
    have h1 := h r (List.mem_cons_self _ _)
    have h2 := ih (fun x hx => h x (List.mem_cons_of_mem _ hx))
    simp only [encodeRows, List.length_append, List.length_cons, encodeRow_length]
    omega

theorem decodeRows_ok (page : Page) (schema : Schema) (rows : TableData) :
    ∀ (fuel offset : Nat) (acc : TableData) (tail : List Byte),
      (∀ r ∈ rows, r.map Field.runtimeType = schema.map Prod.snd ∧
        1 ≤ wireSize r ∧ wireSize r ≤ PAGE_SIZE) →
      page.data.drop offset = encodeRows rows ++ tail →
      offset + (encodeRows rows).length = page.used_bytes →
      page.used_bytes ≤ page.data.length →
      (encodeRows rows).length < fuel →
      decodeRows page schema fuel offset acc = .ok (acc ++ rows) := by
  induction rows with
  | nil =>
    intro fuel offset acc tail _ _ hused _ hfuel
    cases fuel with
    | zero => omega
    | succ k =>
      simp only [encodeRows, List.length_nil, Nat.add_zero] at hused
      simp [decodeRows, hused]
  | cons r rs ih =>
    intro fuel offset acc tail hrows hdrop hused hdata hfuel
    obtain ⟨hty, hpos, hfit⟩ := hrows r (List.mem_cons_self _ _)
    have hrows2 : ∀ x ∈ rs, x.map Field.runtimeType = schema.map Prod.snd ∧
        1 ≤ wireSize x ∧ wireSize x ≤ PAGE_SIZE :=
      fun x hx => hrows x (List.mem_cons_of_mem _ hx)
    simp only [encodeRows, List.length_append, encodeRow_length] at hused hfuel
    simp only [encodeRows, List.append_assoc] at hdrop
    cases fuel with
    | zero => omega
    | succ k =>
      have hlt : offset < page.used_bytes := by omega
      have hne : ¬ page.used_bytes - offset = 0 := by omega
      have hstr : ∀ s, Field.string s ∈ r → s.length ≤ PAGE_SIZE := by
        intro s hs
        have := wireSize_string_le r s hs
        omega
      have hdes := deserializeLoop_ok (page.data.drop offset) (page.used_bytes - offset) r
        schema 0 [] (encodeRows rs ++ tail) hty (by simpa using hdrop) (by omega)
        (by rw [List.length_drop]; omega) hstr
      have hadv := drop_advance page.data (encodeRow r) _ offset hdrop
      rw [encodeRow_length] at hadv
      have hw : ¬ wireSize r = 0 := by omega
      simp only [decodeRows, hlt, if_true, deserializeRow, Page.getReadPtr, hne, if_false,
        hdes, Nat.zero_add, List.nil_append, hw]
      rw [ih k (offset + wireSize r) (acc ++ [r]) tail hrows2 hadv (by omega) hdata (by omega)]
      simp

/-! ### The fuel of the inner loop of `read` -/

theorem deserializeLoop_ne_outOfFuel (buffer : List Byte) (bufferSize : Nat) (cols : Schema) :
    ∀ (offset : Nat) (row : Row),
      deserializeLoop buffer bufferSize cols offset row ≠ .error .outOfFuel := by
  induction cols with
  | nil => intro offset row; simp [deserializeLoop]
  | cons c cs ih =>
    intro offset row
    obtain ⟨name, ty⟩ := c
    cases ty with
    | INT =>
      simp only [deserializeLoop]
      split
      · simp
      · split
        · simp
        · exact ih _ _
    | DOUBLE =>
      simp only [deserializeLoop]
      split
      · simp
      · split
        · simp
        · exact ih _ _
    | STRING =>
      simp only [deserializeLoop]
      split
      · simp
      · split
        · simp
        · split
          · simp
          · split
            · simp
            · exact ih _ _

theorem decodeRows_ne_outOfFuel (page : Page) (schema : Schema) :
    ∀ (fuel offset : Nat) (tableData : TableData),
      page.used_bytes - offset < fuel →
      decodeRows page schema fuel offset tableData ≠ .error .outOfFuel := by
  intro fuel
  induction fuel with
  | zero => intro offset tableData h; omega
  | succ k ih =>
    intro offset tableData h
    simp only [decodeRows]
    split
    · rename_i hlt
      split
      · rename_i e he
        intro hc
        simp only [Except.error.injEq] at hc
        subst hc
        have hne : ¬ page.used_bytes - offset = 0 := by omega
        simp only [deserializeRow, hne, if_false] at he
        exact deserializeLoop_ne_outOfFuel _ _ _ _ _ he
      · rename_i bytesRead row he
        split
        · simp
        · exact ih _ _ (by omega)
    · simp

/-! ### Positional writes -/

theorem getElem?_pwrite (file bytes : List Byte) (pos i : Nat) :
    (pwrite file pos bytes)[i]? =
      if i < pos then (if i < file.length then file[i]? else some 0)
      else if i < pos + bytes.length then bytes[i - pos]?
      else file[i]? := by
  have hl : ((file ++ List.replicate (pos - file.length) 0).take pos).length = pos := by
    simp only [List.length_take, List.length_append, List.length_replicate]
    omega
  unfold pwrite
  rw [List.append_assoc, List.getElem?_append, hl]
  by_cases h1 : i < pos
  · simp only [h1, if_true, List.getElem?_take, List.getElem?_append]
    by_cases h2 : i < file.length
    · simp only [h2, if_true]
    · simp only [h2, if_false, List.getElem?_replicate]
      have : i - file.length < pos - file.length := by omega
      simp only [this, if_true]
  · simp only [h1, if_false, List.getElem?_append]
    by_cases h3 : i < pos + bytes.length
    · have : i - pos < bytes.length := by omega
      simp only [this, h3, if_true]
    · have : ¬ i - pos < bytes.length := by omega
      simp only [this, h3, if_false, List.getElem?_drop]
      congr 1
      omega

theorem pwrite_length (file bytes : List Byte) (pos : Nat) :
    (pwrite file pos bytes).length = max file.length (pos + bytes.length) := by
  simp only [pwrite, List.length_append, List.length_take, List.length_replicate,
    List.length_drop]
  omega

theorem slice_congr (a b : List Byte) (p n : Nat)
    (h : ∀ i, p ≤ i → i < p + n → a[i]? = b[i]?) :
    (a.drop p).take n = (b.drop p).take n := by
  apply List.ext_getElem?
  intro m
  simp only [List.getElem?_take, List.getElem?_drop]
  by_cases hm : m < n
  · simp only [hm, if_true]
    exact h (p + m) (by omega) (by omega)
  · simp only [hm, if_false]

theorem pwrite_slice_disjoint (file bytes : List Byte) (pos p n : Nat)
    (hd : p + n ≤ pos ∨ pos + bytes.length ≤ p) (hl : p + n ≤ file.length) :
    ((pwrite file pos bytes).drop p).take n = (file.drop p).take n := by
  apply slice_congr
  intro i h1 h2
  rw [getElem?_pwrite]
  by_cases h3 : i < pos
  · have : i < file.length := by omega
    simp only [h3, this, if_true]
  · have : ¬ i < pos + bytes.length := by omega
    simp only [h3, this, if_false]

theorem pwrite_slice_same (file bytes : List Byte) (pos : Nat) :
    ((pwrite file pos bytes).drop pos).take bytes.length = bytes := by
  apply List.ext_getElem?
  intro m
  simp only [List.getElem?_take, List.getElem?_drop, getElem?_pwrite]
  by_cases hm : m < bytes.length
  · have h1 : ¬ pos + m < pos := by omega
    have h2 : pos + m < pos + bytes.length := by omega
    simp only [hm, h1, h2, if_true, if_false]
    congr 1
    omega
  · simp only [hm, if_false]
    exact (List.getElem?_eq_none (by omega)).symm

/-! ### Page slots -/

theorem pageOffset_eq (n : Nat) (h1 : 1 ≤ n) (h2 : n ≤ 4294967295) :
    pageOffset n = 4100 + (n - 1) * 4104 := by
  simp only [pageOffset, DATA_PAGE_OFFSET, PAGE_SIZE, HEADER_SIZE, SIZEOF_SIZE_T]
  omega

theorem readPage_writePage_same (file : File) (page : Page) (n : Nat)
    (hd : page.data.length = PAGE_SIZE) (hu : page.used_bytes < 18446744073709551616) :
    readPage (writePage file page n) false n = some page := by
  have hdl : (page.data.take PAGE_SIZE).length = PAGE_SIZE := by
    rw [List.length_take, hd]
    exact Nat.min_self _
  have hdt : page.data.take PAGE_SIZE = page.data := List.take_of_length_le (by omega)
  have hlen1 : (pwrite file (pageOffset n) (toLE SIZEOF_SIZE_T page.used_bytes)).length =
      max file.length (pageOffset n + SIZEOF_SIZE_T) := by
    rw [pwrite_length, toLE_length]
  have hlen2 : (writePage file page n).length ≥ pageOffset n + SIZEOF_SIZE_T + PAGE_SIZE := by
    simp only [writePage, pwrite_length, hdl]
    omega
  have hs1 : ((writePage file page n).drop (pageOffset n + SIZEOF_SIZE_T)).take PAGE_SIZE =
      page.data := by
    have := pwrite_slice_same (pwrite file (pageOffset n) (toLE SIZEOF_SIZE_T page.used_bytes))
      (page.data.take PAGE_SIZE) (pageOffset n + SIZEOF_SIZE_T)
    rw [hdl, hdt] at this
    simpa only [writePage, hdt] using this
  have hs2 : ((writePage file page n).drop (pageOffset n)).take SIZEOF_SIZE_T =
      toLE SIZEOF_SIZE_T page.used_bytes := by
    have h1 := pwrite_slice_disjoint
      (pwrite file (pageOffset n) (toLE SIZEOF_SIZE_T page.used_bytes))
      (page.data.take PAGE_SIZE) (pageOffset n + SIZEOF_SIZE_T) (pageOffset n) SIZEOF_SIZE_T
      (Or.inl (le_refl _)) (by rw [hlen1]; omega)
    have h2 := pwrite_slice_same file (toLE SIZEOF_SIZE_T page.used_bytes) (pageOffset n)
    rw [toLE_length] at h2
    simp only [writePage]
    rw [h1, h2]
  have hc1 : ¬ pageOffset n + SIZEOF_SIZE_T > (writePage file page n).length := by omega
  have hc2 : ¬ pageOffset n + SIZEOF_SIZE_T + PAGE_SIZE > (writePage file page n).length := by
    omega
  simp only [readPage, Bool.false_eq_true, if_false, hc1, hc2, hs1, hs2]
  simp only [SIZEOF_SIZE_T, fromLE_toLE_eight _ hu]

theorem readPage_pwrite_frame (file bytes : List Byte) (pos m : Nat) (page : Page)
    (hr : readPage file false m = some page)
    (hd : pageOffset m + SIZEOF_SIZE_T + PAGE_SIZE ≤ pos ∨ pos + bytes.length ≤ pageOffset m) :
    readPage (pwrite file pos bytes) false m = some page := by
  simp only [readPage, Bool.false_eq_true, if_false] at hr ⊢
  split at hr
  · simp at hr
  · split at hr
    · simp at hr
    · rename_i h1 h2
      have hl := pwrite_length file bytes pos
      have hc1 : ¬ pageOffset m + SIZEOF_SIZE_T > (pwrite file pos bytes).length := by omega
      have hc2 : ¬ pageOffset m + SIZEOF_SIZE_T + PAGE_SIZE > (pwrite file pos bytes).length := by
        omega
      simp only [hc1, hc2, if_false]
      rw [pwrite_slice_disjoint file bytes pos (pageOffset m + SIZEOF_SIZE_T) PAGE_SIZE
          (by omega) (by omega),
        pwrite_slice_disjoint file bytes pos (pageOffset m) SIZEOF_SIZE_T
          (by simp only [SIZEOF_SIZE_T, PAGE_SIZE] at hd ⊢; omega) (by omega)]
      exact hr

theorem readPage_writePage_other (file : File) (page other : Page) (n m : Nat)
    (hn1 : 1 ≤ n) (hn2 : n ≤ 4294967295) (hm1 : 1 ≤ m) (hm2 : m ≤ 4294967295) (hne : m ≠ n)
    (hr : readPage file false m = some other) :
    readPage (writePage file page n) false m = some other := by
  have hon := pageOffset_eq n hn1 hn2
  have hom := pageOffset_eq m hm1 hm2
  have hlt : (page.data.take PAGE_SIZE).length ≤ PAGE_SIZE := by
    rw [List.length_take]
    exact Nat.min_le_left _ _
  have hdis : pageOffset m + 4104 ≤ pageOffset n ∨ pageOffset n + 4104 ≤ pageOffset m := by
    rcases Nat.lt_or_gt_of_ne hne with h | h
    · left; omega
    · right; omega
  unfold writePage
  apply readPage_pwrite_frame
  · apply readPage_pwrite_frame _ _ _ _ _ hr
    rw [toLE_length]
    simp only [SIZEOF_SIZE_T, PAGE_SIZE]
    omega
  · simp only [SIZEOF_SIZE_T, PAGE_SIZE] at hlt ⊢
    omega

theorem readPage_writeHeader (file : File) (page : Page) (k m : Nat)
    (hm1 : 1 ≤ m) (hm2 : m ≤ 4294967295) (hr : readPage file false m = some page) :
    readPage (writeHeader file k) false m = some page := by
  have hom := pageOffset_eq m hm1 hm2
  unfold writeHeader
  apply readPage_pwrite_frame _ _ _ _ _ hr
  rw [toLE_length]
  omega

theorem readHeader_writeHeader (file : File) (k : Nat) (hk : k < 4294967296) :
    readHeader (writeHeader file k) = k := by
  have hl : (writeHeader file k).length ≥ 4 := by
    simp only [writeHeader, pwrite_length, toLE_length]
    omega
  have hs := pwrite_slice_same file (toLE 4 k) 0
  rw [toLE_length, List.drop_zero] at hs
  simp only [readHeader, hl, ge_iff_le, if_true]
  unfold writeHeader
  rw [hs, fromLE_toLE_four k hk]

/-! ### The loop of `write` -/

theorem serializeRow_some (row : Row) (buf : List Byte) (hb : buf.length = PAGE_SIZE)
    (hstr : ∀ s, Field.string s ∈ row → s.length < 4294967296) :
    ∃ buf1 : List Byte,
      serializeRow row (some buf) PAGE_SIZE =
        ((if wireSize row ≤ PAGE_SIZE then wireSize row else 0), some buf1) ∧
      buf1.length = PAGE_SIZE ∧
      (wireSize row ≤ PAGE_SIZE → buf1.take (wireSize row) = encodeRow row) := by
  refine ⟨(serializeLoop PAGE_SIZE row 0 buf).2, ?_, ?_, ?_⟩
  · have hne : ¬ PAGE_SIZE = 0 := by decide
    simp only [serializeRow, hne, if_false]
    congr 1
    by_cases hfit : wireSize row ≤ PAGE_SIZE
    · have hs : ∀ s, Field.string s ∈ row → s.length ≤ PAGE_SIZE := by
        intro s hs
        have := wireSize_string_le row s hs
        omega
      have := (serializeLoop_ok PAGE_SIZE row 0 buf (by omega) (by omega) hs).1
      simp only [hfit, if_true, this, Nat.zero_add]
    · simp only [hfit, if_false]
      exact serializeLoop_fail PAGE_SIZE row 0 buf (by omega) (by omega) hstr
  · rw [serializeLoop_length PAGE_SIZE row 0 buf (by omega), hb]
  · intro hfit
    have hs : ∀ s, Field.string s ∈ row → s.length ≤ PAGE_SIZE := by
      intro s hs
      have := wireSize_string_le row s hs
      omega
    have := (serializeLoop_ok PAGE_SIZE row 0 buf (by omega) (by omega) hs).2
    simpa using this

theorem length_le_flatten_length (groups : List TableData) (h : ∀ g ∈ groups, g ≠ []) :
    groups.length ≤ groups.flatten.length := by
  induction groups with
  | nil => simp
  | cons g gs ih =>
    have h1 : g ≠ [] := h g (List.mem_cons_self _ _)
    have h2 := ih (fun x hx => h x (List.mem_cons_of_mem _ hx))
    have h3 : 1 ≤ g.length := List.length_pos.mpr h1
    simp only [List.flatten_cons, List.length_append, List.length_cons]
    omega

theorem encodable_iff (row : Row) :
    encodable row = true ↔ 1 ≤ wireSize row ∧ wireSize row ≤ PAGE_SIZE := by
  simp [encodable]

theorem writeStep_inv (st : WriteState) (groups : List TableData) (pending : TableData)
    (row : Row) (hinv : WriteInv st groups pending)
    (hstr : ∀ s, Field.string s ∈ row → s.length < 4294967296)
    (hcount : groups.flatten.length + pending.length < 4294967295) :
    ∃ (groups1 : List TableData) (pending1 : TableData),
      WriteInv (writeStep st row) groups1 pending1 ∧
      groups1.flatten ++ pending1 =
        (groups.flatten ++ pending) ++ (if encodable row then [row] else []) := by
  obtain ⟨buf1, hser, hbuf1, htake⟩ := serializeRow_some row st.tempBuffer hinv.bufLen hstr
  by_cases hzero : (if wireSize row ≤ PAGE_SIZE then wireSize row else 0) = 0
  · -- the row is skipped
    have henc : encodable row = false := by
      cases h : encodable row with
      | false => rfl
      | true =>
        rw [encodable_iff] at h
        rw [if_pos h.2] at hzero
        omega
    refine ⟨groups, pending, ?_, by simp [henc]⟩
    simp only [writeStep, hser, hzero, if_true, Option.getD_some]
    exact { hinv with bufLen := hbuf1 }
  · have hfit : wireSize row ≤ PAGE_SIZE := by
      by_contra hc
      rw [if_neg hc] at hzero
      exact hzero rfl
    have hpos : 1 ≤ wireSize row := by
      rw [if_pos hfit] at hzero
      omega
    have henc : encodable row = true := (encodable_iff row).mpr ⟨hpos, hfit⟩
    have hsize : (if wireSize row ≤ PAGE_SIZE then wireSize row else 0) = wireSize row :=
      if_pos hfit
    rw [hsize] at hser hzero
    have hbt : buf1.take (wireSize row) = encodeRow row := htake hfit
    by_cases hspace : st.currentPage.used_bytes + wireSize row ≤ PAGE_SIZE
    · -- the row goes into the working page
      refine ⟨groups, pending ++ [row], ?_, by simp [henc]⟩
      have hsp : st.currentPage.hasSpace (wireSize row) = true := by
        simp [Page.hasSpace, hspace]
      simp only [writeStep, hser, hzero, if_false, Option.getD_some, hsp, Bool.not_true,
        Bool.false_eq_true, hbt]
      have hel : (encodeRow row).length = wireSize row := encodeRow_length row
      refine
        { count := hinv.count
          pages := hinv.pages
          nonempty := hinv.nonempty
          dataLen := ?_
          used := ?_
          usedLe := hspace
          content := ?_
          bufLen := hbuf1
          rowsOk := ?_ }
      · simp only
        rw [memcpy_length _ _ _ (by rw [hel, hinv.dataLen]; exact hspace)]
        exact hinv.dataLen
      · simp only [encodeRows_append, encodeRows, List.append_nil, List.length_append, hel]
        rw [hinv.used]
      · simp only
        have := memcpy_take st.currentPage.data (encodeRow row) st.currentPage.used_bytes
          (by rw [hinv.dataLen]; omega)
        rw [hel] at this
        rw [this, hinv.content]
        simp [encodeRows_append, encodeRows]
      · intro r hr
        rw [← List.append_assoc, List.mem_append] at hr
        rcases hr with hr | hr
        · exact hinv.rowsOk r hr
        · simp only [List.mem_singleton] at hr
          rw [hr]
          exact henc
    · -- the working page is sealed first
      have hupos : 0 < st.currentPage.used_bytes := by omega
      have hpne : pending ≠ [] := by
        intro h
        have := hinv.used
        rw [h] at this
        simp only [encodeRows, List.length_nil] at this
        omega
      have hgl := length_le_flatten_length groups hinv.nonempty
      have hpl : 1 ≤ pending.length := List.length_pos.mpr hpne
      have hk : st.pageCount + 1 ≤ 4294967295 := by
        rw [hinv.count]
        omega
      have hmod : (st.pageCount + 1) % 4294967296 = st.pageCount + 1 :=
        Nat.mod_eq_of_lt (by omega)
      refine ⟨groups ++ [pending], [row], ?_, by simp [henc]⟩
      have hsp : st.currentPage.hasSpace (wireSize row) = false := by
        simp [Page.hasSpace, hspace]
      simp only [writeStep, hser, hzero, if_false, Option.getD_some, hsp, Bool.not_false,
        if_true, hbt, hmod, Page.clear]
      have hel : (encodeRow row).length = wireSize row := encodeRow_length row
      refine
        { count := by simp [hinv.count]
          pages := ?_
          nonempty := ?_
          dataLen := ?_
          used := ?_
          usedLe := by simp only [Nat.zero_add]; exact hfit
          content := ?_
          bufLen := hbuf1
          rowsOk := ?_ }
      · intro i g hg
        simp only
        by_cases hi : i < groups.length
        · rw [List.getElem?_append_left hi] at hg
          obtain ⟨page, hp1, hp2⟩ := hinv.pages i g hg
          refine ⟨page, ?_, hp2⟩
          exact readPage_writePage_other st.file st.currentPage page (st.pageCount + 1) (i + 1)
            (by omega) hk (by omega) (by omega) (by rw [hinv.count]; omega) hp1
        · have hi2 : i = groups.length := by
            by_contra hne
            rw [List.getElem?_eq_none (by simp; omega)] at hg
            simp at hg
          subst hi2
          rw [List.getElem?_concat_length] at hg
          simp only [Option.some.injEq] at hg
          subst hg
          refine ⟨st.currentPage, ?_, hinv.dataLen, hinv.used, hinv.usedLe, hinv.content⟩
          rw [← hinv.count]
          exact readPage_writePage_same st.file st.currentPage (st.pageCount + 1) hinv.dataLen
            (by have := hinv.usedLe; simp only [PAGE_SIZE] at this; omega)
      · intro g hg
        rw [List.mem_append] at hg
        rcases hg with hg | hg
        · exact hinv.nonempty g hg
        · simp only [List.mem_singleton] at hg
          rw [hg]
          exact hpne
      · simp only
        rw [memcpy_length _ _ _ (by rw [hel, hinv.dataLen]; omega)]
        exact hinv.dataLen
      · simp [encodeRows, hel]
      · simp only
        have := memcpy_take st.currentPage.data (encodeRow row) 0 (by omega)
        rw [hel] at this
        simp only [Nat.zero_add] at this ⊢
        rw [this]
        simp [encodeRows]
      · intro r hr
        simp only [List.flatten_append, List.flatten_cons, List.flatten_nil, List.append_nil,
          List.mem_append, List.mem_singleton] at hr
        rcases hr with (hr | hr) | hr
        · exact hinv.rowsOk r (List.mem_append_left _ hr)
        · exact hinv.rowsOk r (List.mem_append_right _ hr)
        · rw [hr]
          exact henc

theorem foldl_writeStep_inv (rows : TableData) :
    ∀ (st : WriteState) (groups : List TableData) (pending : TableData),
      WriteInv st groups pending →
      (∀ r ∈ rows, ∀ s, Field.string s ∈ r → s.length < 4294967296) →
      groups.flatten.length + pending.length + rows.length ≤ 4294967295 →
      ∃ (groups1 : List TableData) (pending1 : TableData),
        WriteInv (rows.foldl writeStep st) groups1 pending1 ∧
        groups1.flatten ++ pending1 = (groups.flatten ++ pending) ++ rows.filter encodable := by
  induction rows with
  | nil =>
    intro st groups pending hinv _ _
    exact ⟨groups, pending, hinv, by simp⟩
  | cons row rest ih =>
    intro st groups pending hinv hstr hcount
    simp only [List.length_cons] at hcount
    obtain ⟨g1, p1, hinv1, heq1⟩ := writeStep_inv st groups pending row hinv
      (hstr row (List.mem_cons_self _ _)) (by omega)
    have hlen1 : g1.flatten.length + p1.length ≤ groups.flatten.length + pending.length + 1 := by
      by_cases he : encodable row = true
      · rw [if_pos he] at heq1
        have := congrArg List.length heq1
        simp only [List.length_append, List.length_singleton] at this
        omega
      · rw [if_neg he] at heq1
        have := congrArg List.length heq1
        simp only [List.length_append, List.length_nil] at this
        omega
    obtain ⟨g2, p2, hinv2, heq2⟩ := ih (writeStep st row) g1 p1 hinv1
      (fun r hr => hstr r (List.mem_cons_of_mem _ hr)) (by omega)
    refine ⟨g2, p2, hinv2, ?_⟩
    rw [heq2, heq1, List.filter_cons]
    by_cases he : encodable row = true
    · rw [if_pos he, if_pos he]
      simp only [List.append_assoc, List.singleton_append]
    · rw [if_neg he, if_neg he]
      simp only [List.append_nil]

theorem writeInv_init (file : File) (pageInit bufferInit : Nat → Byte) :
    WriteInv
      { file := file
        currentPage := { data := uninitialised pageInit PAGE_SIZE, used_bytes := 0 }
        tempBuffer := uninitialised bufferInit PAGE_SIZE
        pageCount := 0 } [] [] :=
  { count := rfl
    pages := by intro i g h; simp at h
    nonempty := by intro g h; simp at h
    dataLen := by simp only [uninitialised_length]
    used := rfl
    usedLe := Nat.zero_le _
    content := List.take_zero _
    bufLen := by simp only [uninitialised_length]
    rowsOk := by intro r h; simp at h }

theorem writeFinish_holds (st : WriteState) (groups : List TableData) (pending : TableData)
    (hinv : WriteInv st groups pending)
    (hcount : groups.flatten.length + pending.length < 4294967295) :
    ∃ groups1 : List TableData,
      (∀ (i : Nat) (g : TableData), groups1[i]? = some g →
        PageHolds (writeFinish st) (i + 1) g) ∧
      readHeader (writeFinish st) = groups1.length ∧
      groups1.flatten = groups.flatten ++ pending ∧
      (∀ g ∈ groups1, g ≠ []) := by
  have hgl := length_le_flatten_length groups hinv.nonempty
  by_cases hu : st.currentPage.used_bytes > 0
  · have hpne : pending ≠ [] := by
      intro h
      have := hinv.used
      rw [h] at this
      simp only [encodeRows, List.length_nil] at this
      omega
    have hpl : 1 ≤ pending.length := List.length_pos.mpr hpne
    have hk : st.pageCount + 1 ≤ 4294967295 := by
      rw [hinv.count]
      omega
    have hmod : (st.pageCount + 1) % 4294967296 = st.pageCount + 1 :=
      Nat.mod_eq_of_lt (by omega)
    refine ⟨groups ++ [pending], ?_, ?_, by simp, ?_⟩
    · intro i g hg
      simp only [writeFinish, hu, if_true, hmod]
      have hpage : PageHolds (writePage st.file st.currentPage (st.pageCount + 1)) (i + 1) g := by
        by_cases hi : i < groups.length
        · rw [List.getElem?_append_left hi] at hg
          obtain ⟨page, hp1, hp2⟩ := hinv.pages i g hg
          refine ⟨page, ?_, hp2⟩
          exact readPage_writePage_other st.file st.currentPage page (st.pageCount + 1) (i + 1)
            (by omega) hk (by omega) (by omega) (by rw [hinv.count]; omega) hp1
        · have hi2 : i = groups.length := by
            by_contra hne
            rw [List.getElem?_eq_none (by simp; omega)] at hg
            simp at hg
          subst hi2
          rw [List.getElem?_concat_length] at hg
          simp only [Option.some.injEq] at hg
          subst hg
          refine ⟨st.currentPage, ?_, hinv.dataLen, hinv.used, hinv.usedLe, hinv.content⟩
          rw [← hinv.count]
          exact readPage_writePage_same st.file st.currentPage (st.pageCount + 1) hinv.dataLen
            (by have := hinv.usedLe; simp only [PAGE_SIZE] at this; omega)
      obtain ⟨page, hp1, hp2⟩ := hpage
      have hil : i < (groups ++ [pending]).length := by
        by_contra hc
        rw [List.getElem?_eq_none (by omega)] at hg
        simp at hg
      simp only [List.length_append, List.length_singleton] at hil
      exact ⟨page, readPage_writeHeader _ page _ (i + 1) (by omega) (by omega) hp1, hp2⟩
    · simp only [writeFinish, hu, if_true, hmod]
      rw [readHeader_writeHeader _ _ (by omega), hinv.count]
      simp
    · intro g hg
      rw [List.mem_append] at hg
      rcases hg with hg | hg
      · exact hinv.nonempty g hg
      · simp only [List.mem_singleton] at hg
        rw [hg]
        exact hpne
  · have hpe : pending = [] := by
      cases hp : pending with
      | nil => rfl
      | cons r rs =>
        have hr := hinv.rowsOk r (by rw [hp]; simp)
        rw [encodable_iff] at hr
        have := hinv.used
        rw [hp] at this
        simp only [encodeRows, List.length_append, encodeRow_length] at this
        omega
    refine ⟨groups, ?_, ?_, by simp [hpe], hinv.nonempty⟩
    · intro i g hg
      simp only [writeFinish, hu, if_false]
      obtain ⟨page, hp1, hp2⟩ := hinv.pages i g hg
      have hil : i < groups.length := by
        by_contra hc
        rw [List.getElem?_eq_none (by omega)] at hg
        simp at hg
      exact ⟨page, readPage_writeHeader _ page _ (i + 1) (by omega) (by omega) hp1, hp2⟩
    · simp only [writeFinish, hu, if_false]
      rw [readHeader_writeHeader _ _ (by rw [hinv.count]; omega), hinv.count]

/-! ### The page loop of `read` -/

theorem readPages_groups (file : File) (schema : Schema) (pageCount : Nat)
    (rest : List TableData) :
    ∀ (j fuel : Nat) (acc : TableData),
      (∀ (i : Nat) (g : TableData), rest[i]? = some g → PageHolds file (j + 1 + i) g) →
      j + rest.length = pageCount → pageCount < 4294967295 → rest.length < fuel →
      (∀ r ∈ rest.flatten, r.map Field.runtimeType = schema.map Prod.snd ∧
        1 ≤ wireSize r ∧ wireSize r ≤ PAGE_SIZE) →
      readPages file schema pageCount fuel (j + 1) false acc = .ok (acc ++ rest.flatten) := by
  induction rest with
  | nil =>
    intro j fuel acc _ hj _ hfuel _
    cases fuel with
    | zero => simp at hfuel
    | succ k =>
      simp only [List.length_nil, Nat.add_zero] at hj
      have : ¬ j + 1 ≤ pageCount := by omega
      simp [readPages, this]
  | cons g gs ih =>
    intro j fuel acc hpages hj hN hfuel hrows
    simp only [List.length_cons] at hj hfuel
    cases fuel with
    | zero => omega
    | succ k =>
      obtain ⟨page, hp1, hp2, hp3, hp4, hp5⟩ := hpages 0 g (by simp)
      have hle : j + 1 ≤ pageCount := by omega
      have hdec := decodeRows_ok page schema g (page.used_bytes + 1) 0 acc
        (page.data.drop page.used_bytes)
        (fun r hr => hrows r (by simp [hr]))
        (by rw [List.drop_zero, ← hp5, List.take_append_drop])
        (by rw [Nat.zero_add, hp3]) (by rw [hp2]; exact hp4) (by omega)
      have hmod : (j + 1 + 1) % 4294967296 = j + 1 + 1 := Nat.mod_eq_of_lt (by omega)
      simp only [Nat.add_zero] at hp1
      simp only [readPages, hle, if_true, hp1, hdec, hmod]
      rw [ih (j + 1) k (acc ++ g)
        (fun i g1 hg1 => by
          have := hpages (i + 1) g1 (by simpa using hg1)
          rw [show j + 1 + (i + 1) = j + 1 + 1 + i by omega] at this
          exact this)
        (by omega) hN (by omega) (fun r hr => hrows r (by simp [hr]))]
      simp

/-- Reading back what `write` wrote: under a schema that the rows conform to,
with every string shorter than 2^32 bytes and fewer than 2^32 - 1 rows, `read`
returns the rows whose encoded form has between 1 and `PAGE_SIZE` bytes, in
their original order, once the page loop is given one more unit of fuel than
there are rows. -/
theorem read_write_filter (schema : Schema) (file : File) (tableData : TableData)
    (pageInit bufferInit : Nat → Byte) (fuel : Nat)
    (hconf : ∀ row ∈ tableData, conforms schema row)
    (hstr : ∀ row ∈ tableData, ∀ s, Field.string s ∈ row → s.length < 4294967296)
    (hlen : tableData.length < 4294967295) (hfuel : tableData.length < fuel) :
    read fuel (write file tableData pageInit bufferInit) schema =
      .ok (tableData.filter encodable) := by
  obtain ⟨g1, p1, hinv1, heq1⟩ := foldl_writeStep_inv tableData _ [] []
    (writeInv_init file pageInit bufferInit) hstr (by simp; omega)
  simp only [List.flatten_nil, List.append_nil, List.nil_append] at heq1
  have hfl : (tableData.filter encodable).length ≤ tableData.length :=
    List.length_filter_le _ _
  have hl1 : g1.flatten.length + p1.length = (tableData.filter encodable).length := by
    rw [← heq1, List.length_append]
  obtain ⟨g2, hpages, hhdr, hflat, hN⟩ := writeFinish_holds _ g1 p1 hinv1 (by omega)
  have hg2 : g2.flatten = tableData.filter encodable := by rw [hflat, heq1]
  have hne2 : g2.length ≤ tableData.length := by
    have := length_le_flatten_length g2 hN
    rw [hg2] at this
    omega
  unfold read write
  rw [hhdr]
  by_cases hz : g2.length = 0
  · have : g2 = [] := List.length_eq_zero.mp hz
    subst this
    simp only [List.length_nil, if_true]
    rw [← hg2]
    rfl
  · simp only [hz, if_false]
    have hall : ∀ r ∈ g2.flatten, r.map Field.runtimeType = schema.map Prod.snd ∧
        1 ≤ wireSize r ∧ wireSize r ≤ PAGE_SIZE := by
      intro r hr
      rw [hg2, List.mem_filter] at hr
      exact ⟨hconf r hr.1, (encodable_iff r).mp hr.2⟩
    have := readPages_groups _ schema g2.length g2 0 fuel [] (fun i g hg => by
        have := hpages i g hg
        rw [show 0 + 1 + i = i + 1 by omega]
        exact this) (by omega) (by omega) (by omega) hall
    simp only [Nat.zero_add, List.nil_append] at this
    rw [this, hg2]

/-! ### Claims about the paged file -/

/-- C1, counterexample: under the empty schema the empty row conforms and
serializes to 0 bytes, which is at most one page, yet `write` followed by `read`
returns no row: `write` takes the returned size 0 for the failure sentinel and
drops the row. -/
theorem roundtrip_loses_empty_row :
    conforms [] [] ∧ wireSize [] ≤ PAGE_SIZE ∧
      ∀ fuel : Nat,
        read fuel (write [] [[]] zeroInit zeroInit) [] = .ok [] ∧
        read fuel (write [] [[]] zeroInit zeroInit) [] ≠ .ok [[]] := by
  refine ⟨by decide, by decide, ?_⟩
  intro fuel
  have h : read fuel (write [] [[]] zeroInit zeroInit) [] = .ok [] := by
    simp [write, writeStep, serializeRow, serializeLoop, writeFinish, PAGE_SIZE, read,
      readHeader, writeHeader, pwrite, toLE, fromLE]
  rw [h]
  exact ⟨rfl, by decide⟩

/-- C1, amended: for every schema with at least one column, every prior
content of the file and every table of fewer than 2^32 - 1 rows that all conform
to the schema and each serialize to at most `PAGE_SIZE` bytes, `write` followed
by `read` with the same schema returns exactly the same rows in the same order,
whatever the two local arrays of `write` held and for every amount of fuel above
the number of rows. -/
theorem read_write_roundtrip (schema : Schema) (file : File) (tableData : TableData)
    (pageInit bufferInit : Nat → Byte) (fuel : Nat)
    (hschema : schema ≠ [])
    (hconf : ∀ row ∈ tableData, conforms schema row)
    (hsize : ∀ row ∈ tableData, wireSize row ≤ PAGE_SIZE)
    (hlen : tableData.length < 4294967295) (hfuel : tableData.length < fuel) :
    read fuel (write file tableData pageInit bufferInit) schema = .ok tableData := by
  have hstr : ∀ row ∈ tableData, ∀ s, Field.string s ∈ row → s.length < 4294967296 := by
    intro row hrow s hs
    have h1 := wireSize_string_le row s hs
    have h2 := hsize row hrow
    simp only [PAGE_SIZE] at h2
    omega
  rw [read_write_filter schema file tableData pageInit bufferInit fuel hconf hstr hlen hfuel]
  congr 1
  rw [List.filter_eq_self]
  intro row hrow
  rw [encodable_iff]
  refine ⟨wireSize_pos row ?_, hsize row hrow⟩
  intro hnil
  have := ((conforms_iff_positional schema row).mp (hconf row hrow)).1
  rw [hnil] at this
  exact hschema (List.length_eq_zero.mp this.symm)

theorem read_write_roundtrip_witness :
    read 3 (write [9, 9, 9] [rowAlice, rowBob] zeroInit zeroInit) testSchema =
      .ok [rowAlice, rowBob] :=
  read_write_roundtrip testSchema [9, 9, 9] [rowAlice, rowBob] zeroInit zeroInit 3
    (by decide) (by decide) (by decide) (by decide) (by decide)

/-- C4, counterexample: the slot of page 1 begins at byte 4100, not at byte
`4 + (1 - 1) * (4096 + 8) = 4`. -/
theorem page_one_slot_not_after_header :
    pageOffset 1 = 4100 ∧ pageOffset 1 ≠ 4 + (1 - 1) * (4096 + 8) ∧
      pageOffset 1 ≠ HEADER_SIZE + (1 - 1) * (PAGE_SIZE + SIZEOF_SIZE_T) := by
  decide

/-- C4, amended: for every page number `n` with `1 <= n < 2^32` (the range of
the `uint32_t` page counter), `writePage` and `readPage` place the slot of page
`n` at byte offset `DATA_PAGE_OFFSET + (n - 1) * (PAGE_SIZE + 8)
= 4100 + (n - 1) * (4096 + 8)`: the 8-byte used-length field there and the 4096
data bytes right after it. -/
theorem page_slot_offset (n : Nat) (h1 : 1 ≤ n) (h2 : n ≤ 4294967295) :
    pageOffset n = DATA_PAGE_OFFSET + (n - 1) * (PAGE_SIZE + SIZEOF_SIZE_T) ∧
      pageOffset n = 4100 + (n - 1) * (4096 + 8) ∧
      (∀ (file : File) (page : Page),
        writePage file page n =
          pwrite (pwrite file (4100 + (n - 1) * (4096 + 8)) (toLE 8 page.used_bytes))
            (4100 + (n - 1) * (4096 + 8) + 8) (page.data.take 4096)) ∧
      (∀ file : File, 4100 + (n - 1) * (4096 + 8) + 8 + 4096 ≤ file.length →
        readPage file false n =
          some { data := (file.drop (4100 + (n - 1) * (4096 + 8) + 8)).take 4096
                 used_bytes := fromLE ((file.drop (4100 + (n - 1) * (4096 + 8))).take 8) }) := by
  have h := pageOffset_eq n h1 h2
  refine ⟨?_, h, ?_, ?_⟩
  · rw [h]
    simp only [DATA_PAGE_OFFSET, PAGE_SIZE, HEADER_SIZE, SIZEOF_SIZE_T]
  · intro file page
    simp only [writePage, h, SIZEOF_SIZE_T, PAGE_SIZE]
  · intro file hl
    have hc1 : ¬ 4100 + (n - 1) * 4104 + 8 > file.length := by omega
    have hc2 : ¬ 4100 + (n - 1) * 4104 + 8 + 4096 > file.length := by omega
    simp only [readPage, h, SIZEOF_SIZE_T, PAGE_SIZE, Bool.false_eq_true, if_false, hc1, hc2]

theorem page_slot_offset_witness :
    pageOffset 2 = 4100 + (2 - 1) * (4096 + 8) :=
  (page_slot_offset 2 (by decide) (by decide)).2.1

theorem hugeString_length : hugeString.length = 4294967297 := by
  rw [hugeString, List.length_replicate]

theorem serializeRow_hugeRow (buffer : Option (List Byte)) (bufferSize : Nat) :
    serializeRow hugeRow buffer bufferSize =
      serializeRow [.string [0]] buffer bufferSize := by
  have hl : hugeString.length % 4294967296 = 1 := by
    rw [hugeString_length]
  have ht : hugeString.take 1 = [0] := by
    rw [hugeString, List.take_replicate]
    rfl
  have hl2 : ([0] : List Byte).length % 4294967296 = 1 := rfl
  have ht2 : ([0] : List Byte).take 1 = [0] := rfl
  cases buffer with
  | none => rfl
  | some buf =>
    simp only [serializeRow, hugeRow, serializeLoop, hl, ht, hl2, ht2]

theorem writeStep_hugeRow (st : WriteState) :
    writeStep st hugeRow = writeStep st [.string [0]] := by
  unfold writeStep
  rw [serializeRow_hugeRow]

/-- C5: the row holding one string of 2^32 + 1 bytes conforms to the
one-column `STRING` schema, and `serializeRow` into a 4096-byte buffer returns 5
for it, which is not the failure sentinel; `write` followed by `read` then
returns a row holding a one-byte string, which is not the row written. -/
theorem huge_string_row_not_recovered :
    conforms textSchema hugeRow ∧
      (∀ buf : List Byte, (serializeRow hugeRow (some buf) PAGE_SIZE).1 = 5) ∧
      (∀ (fuel : Nat) (file : File) (pageInit bufferInit : Nat → Byte), 1 < fuel →
        read fuel (write file [hugeRow] pageInit bufferInit) textSchema =
          .ok [[.string [0]]]) ∧
      [[Field.string [0]]] ≠ [hugeRow] := by
  refine ⟨rfl, ?_, ?_, ?_⟩
  · intro buf
    rw [serializeRow_hugeRow]
    simp [serializeRow, serializeLoop, PAGE_SIZE]
  · intro fuel file pageInit bufferInit hfuel
    have hw : write file [hugeRow] pageInit bufferInit =
        write file [[.string [0]]] pageInit bufferInit := by
      unfold write
      rw [List.foldl_cons, List.foldl_cons, writeStep_hugeRow]
    rw [hw]
    have := read_write_filter textSchema file [[.string [0]]] pageInit bufferInit fuel
      (by decide)
      (by
        intro row hrow s hs
        simp only [List.mem_singleton] at hrow
        subst hrow
        simp only [List.mem_singleton, Field.string.injEq] at hs
        subst hs
        decide)
      (by decide) (by simpa using hfuel)
    rw [this]
    rfl
  · intro h
    have h1 : [Field.string [0]] = hugeRow := (List.cons.inj h).1
    have h2 : ([0] : List Byte) = hugeString := by
      simp only [hugeRow, List.cons.injEq, Field.string.injEq, and_true] at h1
      exact h1
    have h3 := congrArg List.length h2
    rw [hugeString_length] at h3
    simp at h3

/-! ### Further claims about the row store -/

theorem select_foldl (p : Row → Bool) (rows acc : TableData) :
    rows.foldl (fun result row => if p row then result ++ [row] else result) acc =
      acc ++ rows.filter p := by
  induction rows generalizing acc with
  | nil => simp
  | cons r rs ih =>
    rw [List.foldl_cons, ih, List.filter_cons]
    by_cases hp : p r = true
    · rw [if_pos hp, if_pos hp]
      simp
    · rw [if_neg hp, if_neg hp]

/-- C11: `select(p)` returns the stored sequence filtered by `p`: a row is in
the result exactly when it is stored and satisfies `p`, and the result is a
subsequence of the stored rows (same relative order, duplicates kept).  The
method is `const` and the result a fresh vector, so the model gives back no
store: the store after the call is the store before it. -/
theorem select_is_filter (s : RowStore) (p : Row → Bool) :
    s.select p = s.table_data.filter p ∧
      (∀ row : Row, row ∈ s.select p ↔ row ∈ s.table_data ∧ p row = true) ∧
      List.Sublist (s.select p) s.table_data := by
  have h : s.select p = s.table_data.filter p := by
    unfold RowStore.select
    rw [select_foldl]
    simp
  refine ⟨h, ?_, ?_⟩
  · intro row
    rw [h, List.mem_filter]
  · rw [h]
    exact List.filter_sublist _

theorem getRow_eq_getElem? (s : RowStore) (index : Nat) :
    s.getRow index = s.table_data[index]? := by
  unfold RowStore.getRow
  split
  · rename_i hge
    exact (List.getElem?_eq_none hge).symm
  · rfl

/-- C12: `getRow(index)` returns the empty optional exactly when
`index >= rowCount`, and otherwise the row stored at that position.  The method
is `const`, so the model gives back no store. -/
theorem getRow_bounds_checked (s : RowStore) (index : Nat) :
    (s.getRow index = none ↔ index ≥ s.rowCount) ∧
      s.getRow index = s.table_data[index]? ∧
      (index < s.rowCount →
        ∃ row : Row, s.getRow index = some row ∧ s.table_data[index]? = some row) := by
  have h := getRow_eq_getElem? s index
  refine ⟨?_, h, ?_⟩
  · rw [h, List.getElem?_eq_none_iff]
    rfl
  · intro hlt
    have hlt2 : index < s.table_data.length := hlt
    exact ⟨s.table_data[index], by rw [h, List.getElem?_eq_getElem hlt2],
      List.getElem?_eq_getElem hlt2⟩

/-- C18: when `insert` returns `true` the stored sequence is the previous one
with the row appended last: earlier positions read as before, `rowCount` grows
by one and `getRow` at the old `rowCount` returns the row; when it returns
`false` the store is the previous one. -/
theorem insert_appends_at_end (s : RowStore) (row : Row) :
    ((s.insert row).1 = true →
        (s.insert row).2.table_data = s.table_data ++ [row] ∧
        (s.insert row).2.rowCount = s.rowCount + 1 ∧
        (s.insert row).2.getRow s.rowCount = some row ∧
        (∀ i : Nat, i < s.rowCount → (s.insert row).2.getRow i = s.getRow i) ∧
        (s.insert row).2.schema = s.schema) ∧
      ((s.insert row).1 = false → (s.insert row).2 = s) := by
  cases hv : s.validateRow row with
  | false =>
    simp [RowStore.insert, hv]
  | true =>
    have hi : s.insert row = (true, { s with table_data := s.table_data ++ [row] }) := by
      simp [RowStore.insert, hv]
    rw [hi]
    refine ⟨fun _ => ⟨rfl, ?_, ?_, ?_, rfl⟩, fun h => by simp at h⟩
    · simp [RowStore.rowCount]
    · rw [getRow_eq_getElem?]
      simp [RowStore.rowCount]
    · intro i hi2
      rw [getRow_eq_getElem?, getRow_eq_getElem?]
      exact List.getElem?_append_left hi2

theorem updateWhereLoop_mem (s : RowStore) (p : Row → Bool) (f : Row → Row)
    (rows : TableData) (k : Nat) (row : Row)
    (h : row ∈ (updateWhereLoop s p f rows k).2) :
    row ∈ rows ∨ s.validateRow row = true := by
  rw [(updateWhereLoop_spec s p f rows k).2, List.mem_map] at h
  obtain ⟨old, hold, heq⟩ := h
  by_cases hc : commits s p f old = true
  · rw [if_pos hc] at heq
    right
    rw [← heq]
    simp only [commits, Bool.and_eq_true] at hc
    exact hc.2
  · rw [if_neg hc] at heq
    left
    rw [← heq]
    exact hold

theorem StoreCall.run_conforms (s : RowStore) (call : StoreCall)
    (h : ∀ row ∈ s.table_data, conforms s.schema row) :
    (call.run s).schema = s.schema ∧
      ∀ row ∈ (call.run s).table_data, conforms s.schema row := by
  cases call with
  | insert row =>
    simp only [StoreCall.run, RowStore.insert]
    cases hv : s.validateRow row with
    | false => exact ⟨rfl, h⟩
    | true =>
      refine ⟨rfl, ?_⟩
      intro r hr
      simp only [Bool.not_true, Bool.false_eq_true, if_false, List.mem_append,
        List.mem_singleton] at hr
      rcases hr with hr | hr
      · exact h r hr
      · rw [hr]
        exact validateRow_conforms s row hv
  | update index newRow =>
    simp only [StoreCall.run, RowStore.update]
    split
    · exact ⟨rfl, h⟩
    · cases hv : s.validateRow newRow with
      | false => exact ⟨rfl, h⟩
      | true =>
        refine ⟨rfl, ?_⟩
        intro r hr
        simp only [Bool.not_true, Bool.false_eq_true, if_false] at hr
        rcases List.mem_or_eq_of_mem_set hr with hr | hr
        · exact h r hr
        · rw [hr]
          exact validateRow_conforms s newRow hv
  | updateWhere predicate updateFunc =>
    refine ⟨rfl, ?_⟩
    intro r hr
    simp only [StoreCall.run, RowStore.updateWhere] at hr
    rcases updateWhereLoop_mem s predicate updateFunc s.table_data 0 r hr with hr | hr
    · exact h r hr
    · exact validateRow_conforms s r hr
  | deleteRow index =>
    simp only [StoreCall.run, RowStore.deleteRow]
    split
    · exact ⟨rfl, h⟩
    · refine ⟨rfl, ?_⟩
      intro r hr
      exact h r (List.mem_of_mem_eraseIdx hr)
  | deleteWhere predicate =>
    refine ⟨rfl, ?_⟩
    intro r hr
    simp only [StoreCall.run, RowStore.deleteWhere] at hr
    exact h r (List.mem_filter.mp hr).1

theorem runCalls_conforms (calls : List StoreCall) :
    ∀ s : RowStore, (∀ row ∈ s.table_data, conforms s.schema row) →
      (runCalls s calls).schema = s.schema ∧
        ∀ row ∈ (runCalls s calls).table_data, conforms s.schema row := by
  induction calls with
  | nil => intro s h; exact ⟨rfl, h⟩
  | cons call rest ih =>
    intro s h
    obtain ⟨h1, h2⟩ := StoreCall.run_conforms s call h
    have h3 := ih (call.run s) (by rw [h1]; exact h2)
    rw [h1] at h3
    exact h3

/-- C20: starting from a newly constructed store, after any finite sequence of
`insert`, `update`, `updateWhere`, `deleteRow` and `deleteWhere` calls with
arbitrary arguments the schema is the one given at construction and every
stored row has the schema's length and, at each position, the runtime type the
schema declares. -/
theorem stored_rows_conform (schema : Schema) (calls : List StoreCall) :
    (runCalls (RowStore.new schema) calls).schema = schema ∧
      ∀ row ∈ (runCalls (RowStore.new schema) calls).table_data,
        conforms schema row ∧ row.length = schema.length ∧
          ∀ (i : Nat) (f : Field) (c : String × SupportedTypes),
            row[i]? = some f → schema[i]? = some c → f.runtimeType = c.2 := by
  have h := runCalls_conforms calls (RowStore.new schema) (by intro row hr; simp [RowStore.new] at hr)
  refine ⟨h.1, ?_⟩
  intro row hr
  have hc : conforms schema row := h.2 row hr
  exact ⟨hc, (conforms_iff_positional schema row).mp hc⟩

/-! ### Reading a file -/

theorem readInto_eq_read (fuel : Nat) (file : File) (schema : Schema) (prior : TableData) :
    readInto fuel file schema prior = read fuel file schema := rfl

theorem readHeader_short (file : File) (h : file.length < 4) : readHeader file = 0 := by
  have : ¬ 4 ≤ file.length := by omega
  simp [readHeader, this]

theorem readHeader_zero (file : File) (h : file.take 4 = [0, 0, 0, 0]) :
    readHeader file = 0 := by
  unfold readHeader
  split
  · rw [h]
    rfl
  · rfl

/-- C14: for every schema, every file shorter than 4 bytes and every file whose
first 4 bytes are zero, `read` returns the empty table whatever the output
container held on entry, as a value and not as a fault, for every amount of
fuel. -/
theorem read_missing_header_is_empty (schema : Schema) (file : File) (prior : TableData)
    (fuel : Nat) (h : file.length < 4 ∨ file.take 4 = [0, 0, 0, 0]) :
    readInto fuel file schema prior = .ok [] ∧ read fuel file schema = .ok [] := by
  have hz : readHeader file = 0 := by
    rcases h with h | h
    · exact readHeader_short file h
    · exact readHeader_zero file h
  simp [readInto, read, hz, vectorClear]

theorem read_missing_header_is_empty_witness :
    (readInto 0 [] testSchema [rowAlice] = .ok [] ∧ read 0 [] testSchema = .ok []) ∧
      (readInto 0 [0, 0, 0, 0, 7, 7] testSchema [rowAlice] = .ok [] ∧
        read 0 [0, 0, 0, 0, 7, 7] testSchema = .ok []) :=
  ⟨read_missing_header_is_empty testSchema [] [rowAlice] 0 (Or.inl (by decide)),
    read_missing_header_is_empty testSchema [0, 0, 0, 0, 7, 7] [rowAlice] 0
      (Or.inr (by decide))⟩

theorem readPages_maxHeader (schema : Schema) (fuel : Nat) :
    ∀ (pageNum : Nat) (failed : Bool) (tableData : TableData), pageNum ≤ 4294967295 →
      readPages maxHeaderFile schema 4294967295 fuel pageNum failed tableData =
        .error .outOfFuel := by
  induction fuel with
  | zero => intro pageNum failed tableData _; rfl
  | succ k ih =>
    intro pageNum failed tableData hle
    have hr : readPage maxHeaderFile failed pageNum = none := by
      have hl : maxHeaderFile.length = 4 := rfl
      simp only [readPage, hl, SIZEOF_SIZE_T]
      cases failed with
      | true => simp
      | false =>
        have : pageOffset pageNum + 8 > 4 := by omega
        simp [this]
    simp only [readPages, hle, if_true, hr]
    exact ih _ _ _ (by omega)

/-- C16: on the 4-byte file whose header holds 0xFFFFFFFF the page loop of
`read` never ends: the test `pageNum <= pageCount` holds for every `uint32_t`
page number, so for every schema and every amount of fuel the run is out of
fuel before `read` returns. -/
theorem read_never_returns_on_max_header :
    readHeader maxHeaderFile = 4294967295 ∧
      ∀ (schema : Schema) (fuel : Nat),
        read fuel maxHeaderFile schema = .error .outOfFuel := by
  have hh : readHeader maxHeaderFile = 4294967295 := by decide
  refine ⟨hh, ?_⟩
  intro schema fuel
  simp only [read, hh]
  exact readPages_maxHeader schema fuel 1 false [] (by omega)

/-- For every header value below 0xFFFFFFFF the page loop ends: with more fuel
than pages left, `readPages` is not out of fuel. -/
theorem readPages_ne_outOfFuel (file : File) (schema : Schema) (pageCount : Nat)
    (hcount : pageCount < 4294967295) (fuel : Nat) :
    ∀ (pageNum : Nat) (failed : Bool) (tableData : TableData),
      pageCount + 1 - pageNum < fuel →
      readPages file schema pageCount fuel pageNum failed tableData ≠ .error .outOfFuel := by
  induction fuel with
  | zero => intro pageNum failed tableData h; omega
  | succ k ih =>
    intro pageNum failed tableData h
    simp only [readPages]
    split
    · rename_i hle
      have hmod : (pageNum + 1) % 4294967296 = pageNum + 1 := Nat.mod_eq_of_lt (by omega)
      split
      · rw [hmod]
        exact ih _ _ _ (by omega)
      · rename_i page hp
        split
        · rename_i e he
          intro hc
          simp only [Except.error.injEq] at hc
          subst hc
          exact decodeRows_ne_outOfFuel page schema _ 0 tableData (by omega) he
        · rw [hmod]
          exact ih _ _ _ (by omega)
    · simp

/-! ### The results of `serializeRow` -/

theorem wireSize_append (a b : Row) : wireSize (a ++ b) = wireSize a + wireSize b := by
  induction a with
  | nil => simp [wireSize]
  | cons f fs ih =>
    show wireSize (f :: (fs ++ b)) = wireSize (f :: fs) + wireSize b
    simp only [wireSize, ih]
    omega

theorem serializeLoop_long_string (bufferSize : Nat) (row : Row) :
    ∀ (offset : Nat) (buffer : List Byte),
      (∀ s, Field.string s ∈ row → s.length < 4294967296) →
      (∃ s, Field.string s ∈ row ∧ s.length > PAGE_SIZE) →
      (serializeLoop bufferSize row offset buffer).1 = 0 := by
  induction row with
  | nil =>
    intro offset buffer _ h
    obtain ⟨s, hs, _⟩ := h
    simp at hs
  | cons f fs ih =>
    intro offset buffer hstr hlong
    have hstr2 : ∀ s, Field.string s ∈ fs → s.length < 4294967296 :=
      fun s hs => hstr s (List.mem_cons_of_mem _ hs)
    obtain ⟨t, ht, htl⟩ := hlong
    cases f with
    | int v =>
      have ht2 : Field.string t ∈ fs := by simpa using ht
      simp only [serializeLoop]
      split
      · rfl
      · exact ih _ _ hstr2 ⟨t, ht2, htl⟩
    | double v =>
      have ht2 : Field.string t ∈ fs := by simpa using ht
      simp only [serializeLoop]
      split
      · rfl
      · exact ih _ _ hstr2 ⟨t, ht2, htl⟩
    | string s =>
      have hlen : s.length % 4294967296 = s.length :=
        Nat.mod_eq_of_lt (hstr s (List.mem_cons_self _ _))
      simp only [serializeLoop, hlen]
      split
      · rfl
      · rename_i hc
        simp only [List.mem_cons, Field.string.injEq] at ht
        rcases ht with ht | ht
        · subst ht
          omega
        · exact ih _ _ hstr2 ⟨t, ht, htl⟩

/-- The sentinel conditions of `serializeRow` that hold on the code: a null
buffer, a zero `bufferSize`, and, for a row whose strings are all shorter than
2^32 bytes, a prefix of the fields whose encoded form is longer than
`bufferSize` or a string of more than `PAGE_SIZE` bytes. -/
theorem serializeRow_sentinel (row : Row) (buf : List Byte) (bufferSize : Nat) :
    (serializeRow row none bufferSize).1 = 0 ∧
      (serializeRow row (some buf) 0).1 = 0 ∧
      ((∀ s, Field.string s ∈ row → s.length < 4294967296) →
        (∃ pre post : Row, row = pre ++ post ∧ bufferSize < wireSize pre) →
        (serializeRow row (some buf) bufferSize).1 = 0) ∧
      ((∀ s, Field.string s ∈ row → s.length < 4294967296) →
        (∃ s, Field.string s ∈ row ∧ s.length > PAGE_SIZE) →
        (serializeRow row (some buf) bufferSize).1 = 0) := by
  refine ⟨rfl, by simp [serializeRow], ?_, ?_⟩
  · intro hstr hpre
    obtain ⟨pre, post, hrow, hlt⟩ := hpre
    have hw : bufferSize < 0 + wireSize row := by
      rw [hrow, wireSize_append]
      omega
    by_cases h0 : bufferSize = 0
    · simp [serializeRow, h0]
    · simp only [serializeRow, h0, if_false]
      exact serializeLoop_fail bufferSize row 0 buf (Nat.zero_le _) hw hstr
  · intro hstr hlong
    by_cases h0 : bufferSize = 0
    · simp [serializeRow, h0]
    · simp only [serializeRow, h0, if_false]
      exact serializeLoop_long_string bufferSize row 0 buf hstr hlong

/-- C17: the row holding one string of 2^32 + 1 bytes has a Text field longer
than 4096 bytes, and `serializeRow` into a buffer of `PAGE_SIZE` bytes returns
5 for it, not the zero-length sentinel: the size is narrowed to a `uint32_t`
before it is compared with `PAGE_SIZE`. -/
theorem serializeRow_accepts_huge_string :
    hugeString.length = 4294967297 ∧ hugeString.length > PAGE_SIZE ∧
      hugeString.length < 18446744073709551616 ∧
      ∀ buf : List Byte,
        (serializeRow hugeRow (some buf) PAGE_SIZE).1 = 5 ∧
        (serializeRow hugeRow (some buf) PAGE_SIZE).1 ≠ 0 := by
  have hl := hugeString_length
  refine ⟨hl, by rw [hl]; decide, by rw [hl]; decide, ?_⟩
  intro buf
  have h5 : (serializeRow hugeRow (some buf) PAGE_SIZE).1 = 5 := by
    rw [serializeRow_hugeRow]
    simp [serializeRow, serializeLoop, PAGE_SIZE]
  rw [h5]
  exact ⟨rfl, by decide⟩

/-- The wire format of a row whose strings are all shorter than 2^32 bytes:
when `serializeRow` returns a non-zero size into a buffer of at least
`bufferSize` bytes, the size is the sum of the fields' encoded sizes and the
first that many bytes of the buffer are the fields' encoded forms in order. -/
theorem serializeRow_wire_format (row : Row) (buf : List Byte) (bufferSize : Nat)
    (hstr : ∀ s, Field.string s ∈ row → s.length < 4294967296)
    (hbuf : bufferSize ≤ buf.length)
    (hok : (serializeRow row (some buf) bufferSize).1 ≠ 0) :
    (serializeRow row (some buf) bufferSize).1 = wireSize row ∧
      ∃ buf1 : List Byte, (serializeRow row (some buf) bufferSize).2 = some buf1 ∧
        buf1.take (wireSize row) = encodeRow row := by
  have hne : ¬ bufferSize = 0 := by
    intro h0
    apply hok
    simp [serializeRow, h0]
  simp only [serializeRow, hne, if_false] at hok ⊢
  have hfit : 0 + wireSize row ≤ bufferSize := by
    by_contra hc
    exact hok (serializeLoop_fail bufferSize row 0 buf (Nat.zero_le _) (by omega) hstr)
  have hshort : ∀ s, Field.string s ∈ row → s.length ≤ PAGE_SIZE := by
    intro s hs
    by_contra hc
    exact hok (serializeLoop_long_string bufferSize row 0 buf hstr ⟨s, hs, by omega⟩)
  obtain ⟨h1, h2⟩ := serializeLoop_ok bufferSize row 0 buf hfit hbuf hshort
  refine ⟨by rw [h1]; omega, _, rfl, ?_⟩
  simpa using h2

theorem wireSize_cons (f : Field) (fs : Row) :
    wireSize (f :: fs) = fieldWireSize f + wireSize fs := rfl

theorem fieldWireSize_string (s : List Byte) : fieldWireSize (.string s) = 4 + s.length := rfl

theorem wireSize_hugeRow : wireSize hugeRow = 4294967301 := by
  have h : wireSize hugeRow = 4 + hugeString.length + wireSize [] := by
    rw [hugeRow, wireSize_cons, fieldWireSize_string]
  rw [h, hugeString_length]
  rfl

theorem conforms_hugeRow : conforms textSchema hugeRow := by
  simp only [conforms, hugeRow, textSchema, List.map, Field.runtimeType]

theorem serializeRow_hugeRow_size (buf : List Byte) :
    (serializeRow hugeRow (some buf) PAGE_SIZE).1 = 5 := by
  rw [serializeRow_hugeRow]
  simp [serializeRow, serializeLoop, PAGE_SIZE]

/-- C15: the row holding one string of 2^32 + 1 bytes conforms to the
one-column `STRING` schema and `serializeRow` succeeds on it with the returned
length 5, while the sum over the columns, 4 plus the byte length, is
2^32 + 5. -/
theorem serializeRow_length_not_wire_size :
    conforms textSchema hugeRow ∧ wireSize hugeRow = 4294967301 ∧
      ∀ buf : List Byte,
        (serializeRow hugeRow (some buf) PAGE_SIZE).1 = 5 ∧
        (serializeRow hugeRow (some buf) PAGE_SIZE).1 ≠ wireSize hugeRow := by
  refine ⟨conforms_hugeRow, wireSize_hugeRow, ?_⟩
  intro buf
  rw [serializeRow_hugeRow_size, wireSize_hugeRow]
  exact ⟨rfl, by omega⟩

/-! ### The storage writes of `write` -/

theorem serializeLoop_le (bufferSize : Nat) (row : Row) :
    ∀ (offset : Nat) (buffer : List Byte), offset ≤ bufferSize →
      (serializeLoop bufferSize row offset buffer).1 ≤ bufferSize := by
  induction row with
  | nil => intro offset buffer h; exact h
  | cons f fs ih =>
    intro offset buffer h
    cases f with
    | int v =>
      simp only [serializeLoop]
      split
      · exact Nat.zero_le _
      · exact ih _ _ (by omega)
    | double v =>
      simp only [serializeLoop]
      split
      · exact Nat.zero_le _
      · exact ih _ _ (by omega)
    | string s =>
      simp only [serializeLoop]
      split
      · exact Nat.zero_le _
      · exact ih _ _ (by omega)

theorem serializeLoop_indep (bufferSize : Nat) (row : Row) :
    ∀ (offset : Nat) (b1 b2 : List Byte),
      offset ≤ bufferSize → bufferSize ≤ b1.length → bufferSize ≤ b2.length →
      b1.take offset = b2.take offset →
      (serializeLoop bufferSize row offset b1).1 = (serializeLoop bufferSize row offset b2).1 ∧
        (serializeLoop bufferSize row offset b1).2.take
            (serializeLoop bufferSize row offset b1).1 =
          (serializeLoop bufferSize row offset b2).2.take
            (serializeLoop bufferSize row offset b1).1 := by
  induction row with
  | nil =>
    intro offset b1 b2 _ _ _ h
    exact ⟨rfl, h⟩
  | cons f fs ih =>
    intro offset b1 b2 hle h1 h2 h
    cases f with
    | int v =>
      simp only [serializeLoop]
      split
      · simp
      · have hx : (toLE 4 v.val).length = 4 := toLE_length _ _
        apply ih
        · omega
        · rw [memcpy_length _ _ _ (by rw [hx]; omega)]; exact h1
        · rw [memcpy_length _ _ _ (by rw [hx]; omega)]; exact h2
        · have e1 := memcpy_take b1 (toLE 4 v.val) offset (by omega)
          have e2 := memcpy_take b2 (toLE 4 v.val) offset (by omega)
          rw [hx] at e1 e2
          rw [e1, e2, h]
    | double v =>
      simp only [serializeLoop]
      split
      · simp
      · have hx : (toLE 8 v.val).length = 8 := toLE_length _ _
        apply ih
        · omega
        · rw [memcpy_length _ _ _ (by rw [hx]; omega)]; exact h1
        · rw [memcpy_length _ _ _ (by rw [hx]; omega)]; exact h2
        · have e1 := memcpy_take b1 (toLE 8 v.val) offset (by omega)
          have e2 := memcpy_take b2 (toLE 8 v.val) offset (by omega)
          rw [hx] at e1 e2
          rw [e1, e2, h]
    | string s =>
      simp only [serializeLoop]
      split
      · simp
      · rename_i hc
        have hx : (toLE 4 (s.length % 4294967296)).length = 4 := toLE_length _ _
        have hm : s.length % 4294967296 ≤ s.length := Nat.mod_le _ _
        have hy : (s.take (s.length % 4294967296)).length = s.length % 4294967296 := by
          rw [List.length_take]
          omega
        have l1 : (memcpy b1 offset (toLE 4 (s.length % 4294967296))).length = b1.length :=
          memcpy_length _ _ _ (by rw [hx]; omega)
        have l2 : (memcpy b2 offset (toLE 4 (s.length % 4294967296))).length = b2.length :=
          memcpy_length _ _ _ (by rw [hx]; omega)
        apply ih
        · omega
        · rw [memcpy_length _ _ _ (by rw [hy, l1]; omega), l1]; exact h1
        · rw [memcpy_length _ _ _ (by rw [hy, l2]; omega), l2]; exact h2
        · have e1 := memcpy_take b1 (toLE 4 (s.length % 4294967296)) offset (by omega)
          have e2 := memcpy_take b2 (toLE 4 (s.length % 4294967296)) offset (by omega)
          rw [hx] at e1 e2
          have f1 := memcpy_take (memcpy b1 offset (toLE 4 (s.length % 4294967296)))
            (s.take (s.length % 4294967296)) (offset + 4) (by rw [l1]; omega)
          have f2 := memcpy_take (memcpy b2 offset (toLE 4 (s.length % 4294967296)))
            (s.take (s.length % 4294967296)) (offset + 4) (by rw [l2]; omega)
          rw [hy] at f1 f2
          rw [f1, f2, e1, e2, h]

theorem writeStep_skip (st : WriteState) (row : Row) (buf1 : List Byte)
    (h : serializeRow row (some st.tempBuffer) PAGE_SIZE = (0, some buf1)) :
    writeStep st row = { st with tempBuffer := buf1 } ∧ writeStepWrites st row = [] := by
  simp [writeStep, writeStepWrites, h]

theorem writeStep_fit (st : WriteState) (row : Row) (size : Nat) (buf1 : List Byte)
    (h : serializeRow row (some st.tempBuffer) PAGE_SIZE = (size, some buf1))
    (hs : size ≠ 0) (hfit : st.currentPage.used_bytes + size ≤ PAGE_SIZE) :
    writeStep st row =
        { st with
          tempBuffer := buf1
          currentPage :=
            { data := memcpy st.currentPage.data st.currentPage.used_bytes (buf1.take size)
              used_bytes := st.currentPage.used_bytes + size } } ∧
      writeStepWrites st row = [] := by
  have hsp : st.currentPage.hasSpace size = true := by simp [Page.hasSpace, hfit]
  simp [writeStep, writeStepWrites, h, hs, hsp]

theorem writeStep_seal (st : WriteState) (row : Row) (size : Nat) (buf1 : List Byte)
    (h : serializeRow row (some st.tempBuffer) PAGE_SIZE = (size, some buf1))
    (hs : size ≠ 0) (hfit : ¬ st.currentPage.used_bytes + size ≤ PAGE_SIZE) :
    writeStep st row =
        { file := writePage st.file st.currentPage ((st.pageCount + 1) % 4294967296)
          currentPage :=
            { data := memcpy st.currentPage.data 0 (buf1.take size)
              used_bytes := 0 + size }
          tempBuffer := buf1
          pageCount := (st.pageCount + 1) % 4294967296 } ∧
      writeStepWrites st row =
        [.pageSlot ((st.pageCount + 1) % 4294967296) st.currentPage] := by
  have hsp : st.currentPage.hasSpace size = false := by simp [Page.hasSpace, hfit]
  simp [writeStep, writeStepWrites, h, hs, hsp, Page.clear]

theorem serializeRow_shape (row : Row) (buf : List Byte) (bufferSize : Nat) :
    ∃ (size : Nat) (buf1 : List Byte),
      serializeRow row (some buf) bufferSize = (size, some buf1) := by
  by_cases h0 : bufferSize = 0
  · exact ⟨0, buf, by simp only [serializeRow, h0, if_true]⟩
  · exact ⟨(serializeLoop bufferSize row 0 buf).1, (serializeLoop bufferSize row 0 buf).2,
      by simp only [serializeRow, h0, if_false]⟩

theorem WriteState.file_mk (f : File) (p : Page) (b : List Byte) (n : Nat) :
    ({ file := f, currentPage := p, tempBuffer := b, pageCount := n } : WriteState).file = f :=
  rfl

theorem writeStepWrites_replay (st : WriteState) (row : Row) :
    (writeStepWrites st row).foldl StorageWrite.apply st.file = (writeStep st row).file := by
  obtain ⟨size, buf1, hser⟩ := serializeRow_shape row st.tempBuffer PAGE_SIZE
  by_cases hz : size = 0
  · subst hz
    obtain ⟨h1, h2⟩ := writeStep_skip st row buf1 hser
    rw [h1, h2]
    rfl
  · by_cases hfit : st.currentPage.used_bytes + size ≤ PAGE_SIZE
    · obtain ⟨h1, h2⟩ := writeStep_fit st row size buf1 hser hz hfit
      rw [h1, h2]
      rfl
    · have h2 := (writeStep_seal st row size buf1 hser hz hfit).2
      have h1 := congrArg WriteState.file (writeStep_seal st row size buf1 hser hz hfit).1
      rw [WriteState.file_mk] at h1
      rw [h1, h2, List.foldl_cons, List.foldl_nil, StorageWrite.apply]

theorem writeFinishWrites_replay (st : WriteState) :
    (writeFinishWrites st).foldl StorageWrite.apply st.file = writeFinish st := by
  by_cases hu : st.currentPage.used_bytes > 0
  · simp only [writeFinishWrites, writeFinish, hu, if_true, List.foldl_cons, List.foldl_nil,
      StorageWrite.apply]
  · simp only [writeFinishWrites, writeFinish, hu, if_false, List.foldl_cons, List.foldl_nil,
      StorageWrite.apply]

/-- The trace is the trace of `write`: making the storage writes of
`writeLoopWrites` in order, from the file of the state on, gives the file that
the loop and the code after it produce. -/
theorem writeLoopWrites_replay (rows : TableData) :
    ∀ st : WriteState,
      (writeLoopWrites st rows).foldl StorageWrite.apply st.file =
        writeFinish (rows.foldl writeStep st) := by
  induction rows with
  | nil =>
    intro st
    rw [writeLoopWrites, List.foldl_nil]
    exact writeFinishWrites_replay st
  | cons row rest ih =>
    intro st
    rw [writeLoopWrites, List.foldl_append, writeStepWrites_replay, ih, List.foldl_cons]

theorem writeTrace_replay (file : File) (tableData : TableData)
    (pageInit bufferInit : Nat → Byte) :
    (writeTrace file tableData pageInit bufferInit).foldl StorageWrite.apply file =
      write file tableData pageInit bufferInit := by
  have h := writeLoopWrites_replay tableData
    { file := file
      currentPage := { data := uninitialised pageInit PAGE_SIZE, used_bytes := 0 }
      tempBuffer := uninitialised bufferInit PAGE_SIZE
      pageCount := 0 }
  simp only [] at h
  unfold writeTrace write
  rw [h]

/-- What `serializeRow` does with a buffer of `PAGE_SIZE` bytes, whatever the
buffer holds: it returns `serializedSize row`, at most `PAGE_SIZE`, and leaves a
buffer of the same length that starts with `serializedBytes row`. -/
theorem serializeRow_page (row : Row) (buf : List Byte) (hb : buf.length = PAGE_SIZE) :
    ∃ buf1 : List Byte,
      serializeRow row (some buf) PAGE_SIZE = (serializedSize row, some buf1) ∧
      buf1.length = PAGE_SIZE ∧ serializedSize row ≤ PAGE_SIZE ∧
      buf1.take (serializedSize row) = serializedBytes row := by
  have hne : ¬ PAGE_SIZE = 0 := by decide
  have hz : (uninitialised zeroInit PAGE_SIZE).length = PAGE_SIZE := uninitialised_length _ _
  have hind := serializeLoop_indep PAGE_SIZE row 0 buf (uninitialised zeroInit PAGE_SIZE)
    (Nat.zero_le _) (by omega) (by omega) (by simp)
  have hsize : serializedSize row =
      (serializeLoop PAGE_SIZE row 0 (uninitialised zeroInit PAGE_SIZE)).1 := by
    simp only [serializedSize, serializeRow, hne, if_false]
  have hbytes : serializedBytes row =
      (serializeLoop PAGE_SIZE row 0 (uninitialised zeroInit PAGE_SIZE)).2.take
        (serializedSize row) := by
    simp only [serializedBytes, serializeRow, hne, if_false, Option.getD_some]
  refine ⟨(serializeLoop PAGE_SIZE row 0 buf).2, ?_, ?_, ?_, ?_⟩
  · simp only [serializeRow, hne, if_false]
    rw [hsize, hind.1]
  · rw [serializeLoop_length PAGE_SIZE row 0 buf (by omega), hb]
  · rw [hsize]
    exact serializeLoop_le PAGE_SIZE row 0 _ (Nat.zero_le _)
  · rw [hbytes, hsize, ← hind.1]
    exact hind.2

theorem serializedBytes_length (row : Row) :
    (serializedBytes row).length = serializedSize row := by
  obtain ⟨buf1, _, hl, hs, ht⟩ := serializeRow_page row (uninitialised zeroInit PAGE_SIZE)
    (uninitialised_length _ _)
  rw [← ht, List.length_take, hl]
  omega

/-! ### Packing rows into pages -/

theorem serializedBytesAll_append (a b : TableData) :
    serializedBytesAll (a ++ b) = serializedBytesAll a ++ serializedBytesAll b := by
  induction a with
  | nil => rfl
  | cons r rs ih =>
    show serializedBytes r ++ serializedBytesAll (rs ++ b) = _
    rw [ih]
    simp only [serializedBytesAll, List.append_assoc]

theorem sealedPages_append (a b : List StorageWrite) :
    sealedPages (a ++ b) = sealedPages a ++ sealedPages b := by
  induction a with
  | nil => rfl
  | cons w ws ih =>
    cases w with
    | pageSlot n p =>
      show p :: sealedPages (ws ++ b) = p :: sealedPages ws ++ sealedPages b
      rw [ih]
      rfl
    | header k =>
      show sealedPages (ws ++ b) = sealedPages ws ++ sealedPages b
      exact ih

theorem codeEncodable_iff (row : Row) : codeEncodable row = true ↔ serializedSize row ≠ 0 := by
  simp [codeEncodable]

theorem PageInv.pending_nil_iff (st : WriteState) (pending : TableData)
    (inv : PageInv st pending) : pending = [] ↔ st.currentPage.used_bytes = 0 := by
  constructor
  · intro h
    rw [inv.used, h]
    rfl
  · intro h
    cases hp : pending with
    | nil => rfl
    | cons r rs =>
      have h1 := inv.rowsOk r (by rw [hp]; exact List.mem_cons_self _ _)
      have h2 := inv.used
      rw [hp] at h2
      simp only [serializedBytesAll, List.length_append, serializedBytes_length] at h2
      omega

theorem writeStep_pageInv (st : WriteState) (pending : TableData) (row : Row)
    (inv : PageInv st pending) :
    (serializedSize row = 0 ∧ writeStepWrites st row = [] ∧
        PageInv (writeStep st row) pending) ∨
      (serializedSize row ≠ 0 ∧ writeStepWrites st row = [] ∧
        PageInv (writeStep st row) (pending ++ [row])) ∨
      (serializedSize row ≠ 0 ∧ pending ≠ [] ∧
        writeStepWrites st row =
          [.pageSlot ((st.pageCount + 1) % 4294967296) st.currentPage] ∧
        (writeStep st row).pageCount = (st.pageCount + 1) % 4294967296 ∧
        PageInv (writeStep st row) [row]) := by
  obtain ⟨buf1, hser, hlen, hle, htake⟩ := serializeRow_page row st.tempBuffer inv.bufLen
  have hbl : (buf1.take (serializedSize row)).length = serializedSize row := by
    rw [List.length_take, hlen]
    omega
  by_cases hz : serializedSize row = 0
  · left
    rw [hz] at hser
    obtain ⟨h1, h2⟩ := writeStep_skip st row buf1 hser
    refine ⟨hz, h2, ?_⟩
    rw [h1]
    exact
      { dataLen := inv.dataLen
        used := inv.used
        usedLe := inv.usedLe
        content := inv.content
        bufLen := hlen
        rowsOk := inv.rowsOk }
  · right
    by_cases hfit : st.currentPage.used_bytes + serializedSize row ≤ PAGE_SIZE
    · left
      obtain ⟨h1, h2⟩ := writeStep_fit st row _ buf1 hser hz hfit
      refine ⟨hz, h2, ?_⟩
      rw [h1]
      refine
        { dataLen := ?_
          used := ?_
          usedLe := hfit
          content := ?_
          bufLen := hlen
          rowsOk := ?_ }
      · simp only []
        rw [memcpy_length _ _ _ (by rw [hbl, inv.dataLen]; exact hfit)]
        exact inv.dataLen
      · simp only []
        rw [serializedBytesAll_append, List.length_append, inv.used]
        simp only [serializedBytesAll, List.append_nil, serializedBytes_length]
      · simp only [Page.usedRegion]
        have hm := memcpy_take st.currentPage.data (buf1.take (serializedSize row))
          st.currentPage.used_bytes (by rw [inv.dataLen]; omega)
        rw [hbl] at hm
        have hc := inv.content
        simp only [Page.usedRegion] at hc
        rw [hm, hc, htake, serializedBytesAll_append]
        simp only [serializedBytesAll, List.append_nil]
      · intro r hr
        rw [List.mem_append] at hr
        rcases hr with hr | hr
        · exact inv.rowsOk r hr
        · simp only [List.mem_singleton] at hr
          rw [hr]
          exact hz
    · right
      have hpne : pending ≠ [] := by
        intro h
        have := (inv.pending_nil_iff st pending).mp h
        omega
      obtain ⟨h1, h2⟩ := writeStep_seal st row _ buf1 hser hz hfit
      refine ⟨hz, hpne, h2, ?_, ?_⟩
      · rw [h1]
      · rw [h1]
        refine
          { dataLen := ?_
            used := ?_
            usedLe := ?_
            content := ?_
            bufLen := hlen
            rowsOk := ?_ }
        · simp only []
          rw [memcpy_length _ _ _ (by rw [hbl, inv.dataLen]; omega)]
          exact inv.dataLen
        · simp only [serializedBytesAll, List.append_nil, serializedBytes_length, Nat.zero_add]
        · simp only [Nat.zero_add]
          exact hle
        · simp only [Page.usedRegion, Nat.zero_add]
          have hm := memcpy_take st.currentPage.data (buf1.take (serializedSize row)) 0
            (Nat.zero_le _)
          rw [hbl, Nat.zero_add] at hm
          rw [hm, htake]
          simp only [serializedBytesAll, List.append_nil, List.take_zero, List.nil_append]
        · intro r hr
          simp only [List.mem_singleton] at hr
          rw [hr]
          exact hz

theorem writeLoopWrites_packing (rows : TableData) :
    ∀ (st : WriteState) (pending : TableData), PageInv st pending →
      ∃ groups : List TableData,
        (sealedPages (writeLoopWrites st rows)).map Page.usedRegion =
          groups.map serializedBytesAll ∧
        groups.flatten = pending ++ rows.filter codeEncodable ∧
        (∀ g ∈ groups, g ≠ []) ∧
        (∀ p ∈ sealedPages (writeLoopWrites st rows),
          1 ≤ p.used_bytes ∧ p.used_bytes ≤ PAGE_SIZE) := by
  induction rows with
  | nil =>
    intro st pending inv
    by_cases hu : st.currentPage.used_bytes > 0
    · have hpne : pending ≠ [] := by
        intro h
        have := (inv.pending_nil_iff st pending).mp h
        omega
      have hs : sealedPages (writeLoopWrites st []) = [st.currentPage] := by
        simp only [writeLoopWrites, writeFinishWrites, hu, if_true, sealedPages]
      refine ⟨[pending], ?_, by simp, ?_, ?_⟩
      · rw [hs]
        simp only [List.map_cons, List.map_nil, inv.content]
      · intro g hg
        simp only [List.mem_singleton] at hg
        rw [hg]
        exact hpne
      · intro p hp
        rw [hs] at hp
        simp only [List.mem_singleton] at hp
        rw [hp]
        exact ⟨hu, inv.usedLe⟩
    · have hpe : pending = [] := (inv.pending_nil_iff st pending).mpr (by omega)
      have hs : sealedPages (writeLoopWrites st []) = [] := by
        simp only [writeLoopWrites, writeFinishWrites, hu, if_false, sealedPages]
      refine ⟨[], ?_, by simp [hpe], ?_, ?_⟩
      · rw [hs]
        rfl
      · intro g hg
        simp at hg
      · intro p hp
        rw [hs] at hp
        simp at hp
  | cons row rest ih =>
    intro st pending inv
    rw [writeLoopWrites, sealedPages_append]
    rcases writeStep_pageInv st pending row inv with
      ⟨hz, hw, inv1⟩ | ⟨hz, hw, inv1⟩ | ⟨hz, hpne, hw, _, inv1⟩
    · obtain ⟨groups, h1, h2, h3, h4⟩ := ih (writeStep st row) pending inv1
      have hf : codeEncodable row = false := by
        cases h : codeEncodable row with
        | false => rfl
        | true => exact absurd hz ((codeEncodable_iff row).mp h)
      refine ⟨groups, ?_, ?_, h3, ?_⟩
      · rw [hw]
        exact h1
      · rw [h2, List.filter_cons, hf]
        rfl
      · rw [hw]
        exact h4
    · obtain ⟨groups, h1, h2, h3, h4⟩ := ih (writeStep st row) (pending ++ [row]) inv1
      have hf : codeEncodable row = true := (codeEncodable_iff row).mpr hz
      refine ⟨groups, ?_, ?_, h3, ?_⟩
      · rw [hw]
        exact h1
      · rw [h2, List.filter_cons, hf]
        simp
      · rw [hw]
        exact h4
    · obtain ⟨groups, h1, h2, h3, h4⟩ := ih (writeStep st row) [row] inv1
      have hf : codeEncodable row = true := (codeEncodable_iff row).mpr hz
      have hu : 1 ≤ st.currentPage.used_bytes := by
        have := (inv.pending_nil_iff st pending).not.mp hpne
        omega
      refine ⟨pending :: groups, ?_, ?_, ?_, ?_⟩
      · rw [hw]
        simp only [sealedPages, List.nil_append, List.cons_append, List.map_cons, h1,
          inv.content]
      · rw [List.flatten_cons, h2, List.filter_cons, hf]
        simp
      · intro g hg
        simp only [List.mem_cons] at hg
        rcases hg with hg | hg
        · rw [hg]
          exact hpne
        · exact h3 g hg
      · intro p hp
        rw [hw] at hp
        simp only [sealedPages, List.nil_append, List.cons_append, List.mem_cons] at hp
        rcases hp with hp | hp
        · rw [hp]
          exact ⟨hu, inv.usedLe⟩
        · exact h4 p hp

theorem pageInv_init (file : File) (pageInit bufferInit : Nat → Byte) :
    PageInv
      { file := file
        currentPage := { data := uninitialised pageInit PAGE_SIZE, used_bytes := 0 }
        tempBuffer := uninitialised bufferInit PAGE_SIZE
        pageCount := 0 } [] :=
  { dataLen := by simp only [uninitialised_length]
    used := rfl
    usedLe := Nat.zero_le _
    content := List.take_zero _
    bufLen := by simp only [uninitialised_length]
    rowsOk := by intro r h; simp at h }

theorem serializeRow_le (row : Row) (buf : List Byte) (bufferSize : Nat) :
    (serializeRow row (some buf) bufferSize).1 ≤ bufferSize := by
  by_cases h0 : bufferSize = 0
  · simp only [serializeRow, h0, if_true]
    exact Nat.le_refl _
  · simp only [serializeRow, h0, if_false]
    exact serializeLoop_le bufferSize row 0 buf (Nat.zero_le _)

theorem writeStep_used_le (st : WriteState) (row : Row)
    (h : st.currentPage.used_bytes ≤ PAGE_SIZE) :
    (writeStep st row).currentPage.used_bytes ≤ PAGE_SIZE := by
  obtain ⟨size, buf1, hser⟩ := serializeRow_shape row st.tempBuffer PAGE_SIZE
  have hle : size ≤ PAGE_SIZE := by
    have := serializeRow_le row st.tempBuffer PAGE_SIZE
    rw [hser] at this
    exact this
  by_cases hz : size = 0
  · subst hz
    rw [(writeStep_skip st row buf1 hser).1]
    exact h
  · by_cases hfit : st.currentPage.used_bytes + size ≤ PAGE_SIZE
    · rw [(writeStep_fit st row size buf1 hser hz hfit).1]
      exact hfit
    · rw [(writeStep_seal st row size buf1 hser hz hfit).1]
      simp only [Nat.zero_add]
      exact hle

theorem foldl_writeStep_used_le (rows : TableData) :
    ∀ st : WriteState, st.currentPage.used_bytes ≤ PAGE_SIZE →
      (rows.foldl writeStep st).currentPage.used_bytes ≤ PAGE_SIZE := by
  induction rows with
  | nil => intro st h; exact h
  | cons row rest ih =>
    intro st h
    rw [List.foldl_cons]
    exact ih _ (writeStep_used_le st row h)

theorem writeTrace_eq (file : File) (tableData : TableData) (pageInit bufferInit : Nat → Byte) :
    writeTrace file tableData pageInit bufferInit =
      writeLoopWrites (writeStart file pageInit bufferInit) tableData := by
  unfold writeTrace writeStart
  rfl

theorem write_eq (file : File) (tableData : TableData) (pageInit bufferInit : Nat → Byte) :
    write file tableData pageInit bufferInit =
      writeFinish (tableData.foldl writeStep (writeStart file pageInit bufferInit)) := by
  unfold write writeStart
  rfl

theorem pageInv_writeStart (file : File) (pageInit bufferInit : Nat → Byte) :
    PageInv (writeStart file pageInit bufferInit) [] := by
  unfold writeStart
  exact pageInv_init file pageInit bufferInit

theorem flatten_map_serializedBytesAll (groups : List TableData) :
    (groups.map serializedBytesAll).flatten = serializedBytesAll groups.flatten := by
  induction groups with
  | nil => rfl
  | cons g gs ih =>
    rw [List.map_cons, List.flatten_cons, List.flatten_cons, ih, serializedBytesAll_append]

/-- The encoding that `write` copies for a row is the wire format of the
specification whenever the row's strings are shorter than 2^32 bytes and
`serializeRow` does not return the sentinel. -/
theorem serializedBytes_eq_encodeRow (row : Row)
    (hstr : ∀ s, Field.string s ∈ row → s.length < 4294967296)
    (hok : serializedSize row ≠ 0) :
    serializedSize row = wireSize row ∧ serializedBytes row = encodeRow row := by
  have hz : (uninitialised zeroInit PAGE_SIZE).length = PAGE_SIZE := uninitialised_length _ _
  obtain ⟨h1, buf1, h2, h3⟩ := serializeRow_wire_format row (uninitialised zeroInit PAGE_SIZE)
    PAGE_SIZE hstr (by omega) hok
  refine ⟨h1, ?_⟩
  unfold serializedBytes
  rw [h2, Option.getD_some]
  have h4 : serializedSize row = wireSize row := h1
  rw [h4]
  exact h3

/-- C19: for every table, after every number of iterations of the loop of
`write` the working page's `used_bytes` is at most `PAGE_SIZE`; every page that
`write` seals has `1 <= used_bytes <= PAGE_SIZE`; the rows that `serializeRow`
does not reject split into consecutive non-empty runs, one per sealed page in
the order of sealing, such that the used region of each sealed page is the
concatenation of the encodings `serializeRow` produced for the rows of its run;
and the used regions of the sealed pages, one after the other, are the
encodings of all those rows in order. -/
theorem rows_packed_whole_into_pages (file : File) (tableData : TableData)
    (pageInit bufferInit : Nat → Byte) :
    (∀ k : Nat,
        ((tableData.take k).foldl writeStep
          (writeStart file pageInit bufferInit)).currentPage.used_bytes ≤ PAGE_SIZE) ∧
      (∀ p ∈ sealedPages (writeTrace file tableData pageInit bufferInit),
        1 ≤ p.used_bytes ∧ p.used_bytes ≤ PAGE_SIZE) ∧
      (∃ groups : List TableData,
        groups.flatten = tableData.filter codeEncodable ∧
        (∀ g ∈ groups, g ≠ []) ∧
        (sealedPages (writeTrace file tableData pageInit bufferInit)).map Page.usedRegion =
          groups.map serializedBytesAll) ∧
      ((sealedPages (writeTrace file tableData pageInit bufferInit)).map
          Page.usedRegion).flatten =
        serializedBytesAll (tableData.filter codeEncodable) ∧
      (writeTrace file tableData pageInit bufferInit).foldl StorageWrite.apply file =
        write file tableData pageInit bufferInit := by
  obtain ⟨groups, h1, h2, h3, h4⟩ := writeLoopWrites_packing tableData
    (writeStart file pageInit bufferInit) [] (pageInv_writeStart file pageInit bufferInit)
  rw [← writeTrace_eq] at h1 h4
  rw [List.nil_append] at h2
  refine ⟨?_, h4, ⟨groups, h2, h3, h1⟩, ?_, writeTrace_replay file tableData pageInit bufferInit⟩
  · intro k
    exact foldl_writeStep_used_le _ _ (Nat.zero_le _)
  · rw [h1, flatten_map_serializedBytesAll, h2]

/-! ### The order of the storage writes -/

theorem slotWrites_length (first : Nat) (pages : List Page) :
    (slotWrites first pages).length = pages.length := by
  induction pages generalizing first with
  | nil => rfl
  | cons p ps ih =>
    show (slotWrites (first + 1) ps).length + 1 = ps.length + 1
    rw [ih]

theorem writeLoopWrites_numbered (rows : TableData) :
    ∀ st : WriteState, st.currentPage.used_bytes ≤ PAGE_SIZE →
      st.pageCount + (if st.currentPage.used_bytes > 0 then 1 else 0) + rows.length ≤
        4294967295 →
      ∃ pages : List Page,
        writeLoopWrites st rows =
          slotWrites (st.pageCount + 1) pages ++ [.header (st.pageCount + pages.length)] ∧
        st.pageCount + pages.length ≤
          st.pageCount + (if st.currentPage.used_bytes > 0 then 1 else 0) + rows.length := by
  induction rows with
  | nil =>
    intro st _ hb
    by_cases hu : st.currentPage.used_bytes > 0
    · rw [if_pos hu] at hb
      have hmod : (st.pageCount + 1) % 4294967296 = st.pageCount + 1 :=
        Nat.mod_eq_of_lt (by omega)
      refine ⟨[st.currentPage], ?_, ?_⟩
      · simp only [writeLoopWrites, writeFinishWrites, hu, if_true, hmod, slotWrites,
          List.length_singleton, List.cons_append, List.nil_append]
      · rw [if_pos hu]
        simp only [List.length_singleton, List.length_nil]
        omega
    · refine ⟨[], ?_, ?_⟩
      · simp only [writeLoopWrites, writeFinishWrites, hu, if_false, slotWrites,
          List.length_nil, Nat.add_zero, List.nil_append]
      · simp only [List.length_nil]
        omega
  | cons row rest ih =>
    intro st hle hb
    simp only [List.length_cons] at hb
    obtain ⟨size, buf1, hser⟩ := serializeRow_shape row st.tempBuffer PAGE_SIZE
    have hsz : size ≤ PAGE_SIZE := by
      have := serializeRow_le row st.tempBuffer PAGE_SIZE
      rw [hser] at this
      exact this
    rw [writeLoopWrites]
    by_cases hz : size = 0
    · subst hz
      obtain ⟨h1, h2⟩ := writeStep_skip st row buf1 hser
      have hu1 : (writeStep st row).currentPage.used_bytes = st.currentPage.used_bytes := by
        rw [h1]
      have hp1 : (writeStep st row).pageCount = st.pageCount := by rw [h1]
      obtain ⟨pages, hp, hn⟩ := ih (writeStep st row) (by rw [hu1]; exact hle)
        (by rw [hu1, hp1]; omega)
      rw [hu1, hp1] at hn
      refine ⟨pages, ?_, by simp only [List.length_cons]; omega⟩
      rw [h2, hp, hp1]
      rfl
    · by_cases hfit : st.currentPage.used_bytes + size ≤ PAGE_SIZE
      · obtain ⟨h1, h2⟩ := writeStep_fit st row size buf1 hser hz hfit
        have hu1 : (writeStep st row).currentPage.used_bytes =
            st.currentPage.used_bytes + size := by rw [h1]
        have hp1 : (writeStep st row).pageCount = st.pageCount := by rw [h1]
        have hpos : st.currentPage.used_bytes + size > 0 := by omega
        obtain ⟨pages, hp, hn⟩ := ih (writeStep st row) (by rw [hu1]; exact hfit)
          (by
            rw [hu1, hp1, if_pos hpos]
            split at hb <;> omega)
        rw [hu1, hp1, if_pos hpos] at hn
        refine ⟨pages, ?_, by simp only [List.length_cons]; split <;> omega⟩
        rw [h2, hp, hp1]
        rfl
      · have hu : st.currentPage.used_bytes > 0 := by omega
        rw [if_pos hu] at hb
        have hmod : (st.pageCount + 1) % 4294967296 = st.pageCount + 1 :=
          Nat.mod_eq_of_lt (by omega)
        obtain ⟨h1, h2⟩ := writeStep_seal st row size buf1 hser hz hfit
        rw [hmod] at h1 h2
        have hu1 : (writeStep st row).currentPage.used_bytes = 0 + size := by rw [h1]
        have hp1 : (writeStep st row).pageCount = st.pageCount + 1 := by rw [h1]
        have hpos : 0 + size > 0 := by omega
        obtain ⟨pages, hp, hn⟩ := ih (writeStep st row) (by rw [hu1]; omega)
          (by
            rw [hu1, hp1, if_pos hpos]
            omega)
        rw [hu1, hp1, if_pos hpos] at hn
        refine ⟨st.currentPage :: pages, ?_, by rw [if_pos hu]; simp only [List.length_cons]; omega⟩
        rw [h2, hp, hp1]
        simp only [slotWrites, List.length_cons, List.cons_append, List.nil_append,
          List.cons.injEq, true_and, and_true, List.append_cancel_left_eq,
          StorageWrite.header.injEq]
        omega

theorem writeLoopWrites_none_encodable (rows : TableData) :
    ∀ st : WriteState, st.currentPage.used_bytes = 0 → st.tempBuffer.length = PAGE_SIZE →
      (∀ row ∈ rows, serializedSize row = 0) →
      writeLoopWrites st rows = [.header st.pageCount] := by
  induction rows with
  | nil =>
    intro st hu _ _
    have : ¬ st.currentPage.used_bytes > 0 := by omega
    simp only [writeLoopWrites, writeFinishWrites, this, if_false]
  | cons row rest ih =>
    intro st hu hb hrows
    obtain ⟨buf1, hser, hlen, _, _⟩ := serializeRow_page row st.tempBuffer hb
    rw [hrows row (List.mem_cons_self _ _)] at hser
    obtain ⟨h1, h2⟩ := writeStep_skip st row buf1 hser
    have hu1 : (writeStep st row).currentPage.used_bytes = 0 := by rw [h1]; exact hu
    have hb1 : (writeStep st row).tempBuffer.length = PAGE_SIZE := by rw [h1]; exact hlen
    have hp1 : (writeStep st row).pageCount = st.pageCount := by rw [h1]
    rw [writeLoopWrites, h2, ih (writeStep st row) hu1 hb1
      (fun r hr => hrows r (List.mem_cons_of_mem _ hr)), hp1]
    rfl

theorem wireSize_fullRow : wireSize fullRow = 4096 := by
  have h : wireSize fullRow = 4 + (List.replicate 4092 (0 : Byte)).length + wireSize [] := by
    rw [fullRow, wireSize_cons, fieldWireSize_string]
  rw [h, List.length_replicate]
  rfl

theorem serializedSize_fullRow : serializedSize fullRow = 4096 := by
  have hstr : ∀ s, Field.string s ∈ fullRow → s.length < 4294967296 := by
    intro s hs
    rw [fullRow, List.mem_singleton, Field.string.injEq] at hs
    rw [hs, List.length_replicate]
    omega
  obtain ⟨buf1, h1, _, _⟩ := serializeRow_some fullRow (uninitialised zeroInit PAGE_SIZE)
    (uninitialised_length _ _) hstr
  have hw : wireSize fullRow ≤ PAGE_SIZE := by
    rw [wireSize_fullRow]
    decide
  rw [if_pos hw, wireSize_fullRow] at h1
  unfold serializedSize
  rw [h1]

theorem writeLoopWrites_fullRows (k : Nat) :
    ∀ st : WriteState, st.currentPage.used_bytes = 4096 → st.tempBuffer.length = PAGE_SIZE →
      ∃ pre : List StorageWrite,
        writeLoopWrites st (List.replicate k fullRow) =
          pre ++ [.header ((st.pageCount + k + 1) % 4294967296)] ∧
        pre.length = k + 1 := by
  induction k with
  | zero =>
    intro st hu _
    have hpos : st.currentPage.used_bytes > 0 := by omega
    refine ⟨[.pageSlot ((st.pageCount + 1) % 4294967296) st.currentPage], ?_, rfl⟩
    rw [List.replicate_zero]
    simp only [writeLoopWrites, writeFinishWrites, hpos, if_true, Nat.add_zero,
      List.cons_append, List.nil_append]
  | succ n ih =>
    intro st hu hb
    obtain ⟨buf1, hser, hlen, _, _⟩ := serializeRow_page fullRow st.tempBuffer hb
    rw [serializedSize_fullRow] at hser
    have hfit : ¬ st.currentPage.used_bytes + 4096 ≤ PAGE_SIZE := by
      rw [hu]
      decide
    obtain ⟨h1, h2⟩ := writeStep_seal st fullRow 4096 buf1 hser (by decide) hfit
    have hu1 : (writeStep st fullRow).currentPage.used_bytes = 4096 := by rw [h1]
    have hb1 : (writeStep st fullRow).tempBuffer.length = PAGE_SIZE := by rw [h1]; exact hlen
    have hp1 : (writeStep st fullRow).pageCount = (st.pageCount + 1) % 4294967296 := by
      rw [h1]
    obtain ⟨pre, hpre, hl⟩ := ih (writeStep st fullRow) hu1 hb1
    refine ⟨.pageSlot ((st.pageCount + 1) % 4294967296) st.currentPage :: pre, ?_, ?_⟩
    · rw [List.replicate_succ, writeLoopWrites, h2, hpre, hp1]
      have hm : ((st.pageCount + 1) % 4294967296 + n + 1) % 4294967296 =
          (st.pageCount + (n + 1) + 1) % 4294967296 := by omega
      rw [hm]
      rfl
    · rw [List.length_cons, hl]

/-- C13, counterexample: for the table of 2^32 + 1 rows that each fill a page,
the storage writes of `write` are 2^32 + 1 page-slot writes followed by the
header carrying 1, so they are not the slots 1 to N followed by the header
carrying N for any N: the `uint32_t` page counter wraps. -/
theorem page_counter_wraps :
    (∃ pre : List StorageWrite,
        writeTrace [] manyFullRows zeroInit zeroInit = pre ++ [.header 1] ∧
        pre.length = 4294967297) ∧
      ¬ ∃ pages : List Page,
        writeTrace [] manyFullRows zeroInit zeroInit =
          slotWrites 1 pages ++ [.header pages.length] := by
  have hrep : manyFullRows = fullRow :: List.replicate 4294967296 fullRow :=
    List.replicate_succ fullRow 4294967296
  have hst := pageInv_writeStart [] zeroInit zeroInit
  obtain ⟨buf1, hser, hlen, _, _⟩ := serializeRow_page fullRow
    (writeStart [] zeroInit zeroInit).tempBuffer hst.bufLen
  rw [serializedSize_fullRow] at hser
  have hu0 : (writeStart [] zeroInit zeroInit).currentPage.used_bytes = 0 := rfl
  have hp0 : (writeStart [] zeroInit zeroInit).pageCount = 0 := rfl
  have hfit : (writeStart [] zeroInit zeroInit).currentPage.used_bytes + 4096 ≤ PAGE_SIZE := by
    rw [hu0]
    decide
  obtain ⟨h1, h2⟩ := writeStep_fit (writeStart [] zeroInit zeroInit) fullRow 4096 buf1 hser
    (by decide) hfit
  have hu1 : (writeStep (writeStart [] zeroInit zeroInit) fullRow).currentPage.used_bytes =
      4096 := by
    rw [h1]
    show (writeStart [] zeroInit zeroInit).currentPage.used_bytes + 4096 = 4096
    rw [hu0]
  have hb1 : (writeStep (writeStart [] zeroInit zeroInit) fullRow).tempBuffer.length =
      PAGE_SIZE := by
    rw [h1]
    exact hlen
  have hp1 : (writeStep (writeStart [] zeroInit zeroInit) fullRow).pageCount = 0 := by
    rw [h1]
    exact hp0
  obtain ⟨pre, hpre, hl⟩ := writeLoopWrites_fullRows 4294967296
    (writeStep (writeStart [] zeroInit zeroInit) fullRow) hu1 hb1
  rw [hp1] at hpre
  have hone : (0 + 4294967296 + 1) % 4294967296 = 1 := by decide
  rw [hone] at hpre
  have htrace : writeTrace [] manyFullRows zeroInit zeroInit = pre ++ [.header 1] := by
    rw [writeTrace_eq, hrep, writeLoopWrites, h2, hpre]
    rfl
  refine ⟨⟨pre, htrace, hl⟩, ?_⟩
  rintro ⟨pages, hpages⟩
  rw [htrace] at hpages
  obtain ⟨e1, e2⟩ := List.append_inj' hpages rfl
  simp only [List.cons.injEq, StorageWrite.header.injEq, and_true] at e2
  have e3 := congrArg List.length e1
  rw [slotWrites_length, hl, ← e2] at e3
  omega

theorem foldl_apply_append_header (file : File) (pre : List StorageWrite) (k : Nat) :
    (pre ++ [StorageWrite.header k]).foldl StorageWrite.apply file =
      writeHeader (pre.foldl StorageWrite.apply file) k := by
  rw [List.foldl_append, List.foldl_cons, List.foldl_nil, StorageWrite.apply]

/-- C13, amended: for every table of fewer than 2^32 rows, the storage writes
of `write` are the page slots 1, 2, ..., N, each once and in ascending order,
followed last by the header carrying N, and N is the header value read back
from the file; when `serializeRow` rejects every row (in particular for the
empty table) the only write is the header carrying 0.  The storage writes, made
in order, produce the file that `write` produces. -/
theorem storage_writes_in_order (file : File) (tableData : TableData)
    (pageInit bufferInit : Nat → Byte) (hlen : tableData.length ≤ 4294967295) :
    (∃ pages : List Page,
        writeTrace file tableData pageInit bufferInit =
          slotWrites 1 pages ++ [.header pages.length] ∧
        readHeader (write file tableData pageInit bufferInit) = pages.length) ∧
      ((∀ row ∈ tableData, serializedSize row = 0) →
        writeTrace file tableData pageInit bufferInit = [.header 0]) ∧
      (writeTrace file tableData pageInit bufferInit).foldl StorageWrite.apply file =
        write file tableData pageInit bufferInit := by
  have hst := pageInv_writeStart file pageInit bufferInit
  have hu0 : (writeStart file pageInit bufferInit).currentPage.used_bytes = 0 := rfl
  have hp0 : (writeStart file pageInit bufferInit).pageCount = 0 := rfl
  have hreplay := writeTrace_replay file tableData pageInit bufferInit
  refine ⟨?_, ?_, hreplay⟩
  · obtain ⟨pages, hp, hn⟩ := writeLoopWrites_numbered tableData
      (writeStart file pageInit bufferInit) hst.usedLe
      (by
        rw [hu0, hp0]
        simp only [gt_iff_lt, Nat.lt_irrefl, if_false]
        omega)
    rw [hu0, hp0] at hn
    simp only [gt_iff_lt, Nat.lt_irrefl, if_false, Nat.zero_add, Nat.add_zero] at hn
    rw [hp0] at hp
    simp only [Nat.zero_add] at hp
    rw [← writeTrace_eq] at hp
    refine ⟨pages, hp, ?_⟩
    rw [← hreplay, hp, foldl_apply_append_header]
    exact readHeader_writeHeader _ _ (by omega)
  · intro hrows
    rw [writeTrace_eq, writeLoopWrites_none_encodable tableData
      (writeStart file pageInit bufferInit) hu0 hst.bufLen hrows, hp0]

theorem storage_writes_in_order_witness :
    (∃ pages : List Page,
        writeTrace [9, 9, 9] [rowAlice, rowBob] zeroInit zeroInit =
          slotWrites 1 pages ++ [.header pages.length] ∧
        readHeader (write [9, 9, 9] [rowAlice, rowBob] zeroInit zeroInit) = pages.length) ∧
      ((∀ row ∈ [rowAlice, rowBob], serializedSize row = 0) →
        writeTrace [9, 9, 9] [rowAlice, rowBob] zeroInit zeroInit = [.header 0]) ∧
      (writeTrace [9, 9, 9] [rowAlice, rowBob] zeroInit zeroInit).foldl StorageWrite.apply
          [9, 9, 9] =
        write [9, 9, 9] [rowAlice, rowBob] zeroInit zeroInit :=
  storage_writes_in_order [9, 9, 9] [rowAlice, rowBob] zeroInit zeroInit (by decide)

/-! ### What `read` returns -/

theorem readBytes_length (buffer bs : List Byte) (offset n : Nat)
    (h : readBytes buffer offset n = some bs) : bs.length = n := by
  unfold readBytes at h
  split at h
  · rename_i hle
    simp only [Option.some.injEq] at h
    rw [← h, List.length_take, List.length_drop]
    omega
  · simp at h

theorem deserializeLoop_fields (buffer : List Byte) (bufferSize : Nat) (cols : Schema) :
    ∀ (offset : Nat) (acc : Row) (n : Nat) (row : Row),
      deserializeLoop buffer bufferSize cols offset acc = .ok (n, row) → n ≠ 0 →
      ∃ fields : Row, row = acc ++ fields ∧
        fields.map Field.runtimeType = cols.map Prod.snd ∧
        ∀ s, Field.string s ∈ fields → s.length ≤ PAGE_SIZE := by
  induction cols with
  | nil =>
    intro offset acc n row h _
    simp only [deserializeLoop, Except.ok.injEq, Prod.mk.injEq] at h
    exact ⟨[], by rw [← h.2, List.append_nil], rfl, by intro s hs; simp at hs⟩
  | cons c cs ih =>
    intro offset acc n row h hn
    obtain ⟨name, ty⟩ := c
    cases ty with
    | INT =>
      simp only [deserializeLoop] at h
      split at h
      · simp only [Except.ok.injEq, Prod.mk.injEq] at h
        exact absurd h.1.symm hn
      · split at h
        · simp at h
        · obtain ⟨fields, h1, h2, h3⟩ := ih _ _ _ _ h hn
          refine ⟨_ :: fields, by rw [h1, List.append_assoc, List.singleton_append], ?_, ?_⟩
          · simp only [List.map_cons, Field.runtimeType, h2]
          · intro s hs
            simp only [List.mem_cons, reduceCtorEq, false_or] at hs
            exact h3 s hs
    | DOUBLE =>
      simp only [deserializeLoop] at h
      split at h
      · simp only [Except.ok.injEq, Prod.mk.injEq] at h
        exact absurd h.1.symm hn
      · split at h
        · simp at h
        · obtain ⟨fields, h1, h2, h3⟩ := ih _ _ _ _ h hn
          refine ⟨_ :: fields, by rw [h1, List.append_assoc, List.singleton_append], ?_, ?_⟩
          · simp only [List.map_cons, Field.runtimeType, h2]
          · intro s hs
            simp only [List.mem_cons, reduceCtorEq, false_or] at hs
            exact h3 s hs
    | STRING =>
      simp only [deserializeLoop] at h
      split at h
      · simp only [Except.ok.injEq, Prod.mk.injEq] at h
        exact absurd h.1.symm hn
      · split at h
        · simp at h
        · rename_i lenBytes hlb
          split at h
          · simp only [Except.ok.injEq, Prod.mk.injEq] at h
            exact absurd h.1.symm hn
          · rename_i hc
            split at h
            · simp at h
            · rename_i str hstr
              have hsl := readBytes_length _ _ _ _ hstr
              obtain ⟨fields, h1, h2, h3⟩ := ih _ _ _ _ h hn
              refine ⟨Field.string str :: fields,
                by rw [h1, List.append_assoc, List.singleton_append], ?_, ?_⟩
              · simp only [List.map_cons, Field.runtimeType, h2]
              · intro s hs
                simp only [List.mem_cons, Field.string.injEq] at hs
                rcases hs with hs | hs
                · rw [hs, hsl]
                  omega
                · exact h3 s hs

theorem deserializeRow_rowOk (buf : List Byte) (bufferSize : Nat) (schema : Schema)
    (row0 row : Row) (n : Nat)
    (h : deserializeRow (some buf) bufferSize schema row0 = .ok (n, row)) (hn : n ≠ 0) :
    ReadRowOk schema row := by
  unfold deserializeRow at h
  simp only at h
  split at h
  · simp only [Except.ok.injEq, Prod.mk.injEq] at h
    exact absurd h.1.symm hn
  · obtain ⟨fields, h1, h2, h3⟩ := deserializeLoop_fields buf bufferSize schema 0 [] n row h hn
    rw [List.nil_append] at h1
    rw [h1]
    exact ⟨h2, h3⟩

theorem decodeRows_rowOk (page : Page) (schema : Schema) (fuel : Nat) :
    ∀ (offset : Nat) (acc result : TableData),
      decodeRows page schema fuel offset acc = .ok result →
      (∀ row ∈ acc, ReadRowOk schema row) → ∀ row ∈ result, ReadRowOk schema row := by
  induction fuel with
  | zero =>
    intro offset acc result h _
    simp [decodeRows] at h
  | succ k ih =>
    intro offset acc result h hacc
    simp only [decodeRows] at h
    split at h
    · split at h
      · simp at h
      · rename_i bytesRead row hd
        split at h
        · simp only [Except.ok.injEq] at h
          rw [← h]
          exact hacc
        · rename_i hne
          apply ih _ _ _ h
          intro r hr
          rw [List.mem_append] at hr
          rcases hr with hr | hr
          · exact hacc r hr
          · simp only [List.mem_singleton] at hr
            rw [hr]
            exact deserializeRow_rowOk _ _ schema [] row bytesRead hd hne
    · simp only [Except.ok.injEq] at h
      rw [← h]
      exact hacc

theorem readPages_rowOk (file : File) (schema : Schema) (pageCount fuel : Nat) :
    ∀ (pageNum : Nat) (failed : Bool) (acc result : TableData),
      readPages file schema pageCount fuel pageNum failed acc = .ok result →
      (∀ row ∈ acc, ReadRowOk schema row) → ∀ row ∈ result, ReadRowOk schema row := by
  induction fuel with
  | zero =>
    intro pageNum failed acc result h _
    simp [readPages] at h
  | succ k ih =>
    intro pageNum failed acc result h hacc
    simp only [readPages] at h
    split at h
    · split at h
      · exact ih _ _ _ _ h hacc
      · rename_i page hp
        split at h
        · simp at h
        · rename_i td1 hd
          exact ih _ _ _ _ h (decodeRows_rowOk page schema _ 0 acc td1 hd hacc)
    · simp only [Except.ok.injEq] at h
      rw [← h]
      exact hacc

theorem read_rowOk (fuel : Nat) (file : File) (schema : Schema) (tableData : TableData)
    (h : read fuel file schema = .ok tableData) :
    ∀ row ∈ tableData, ReadRowOk schema row := by
  unfold read at h
  simp only at h
  split at h
  · simp only [Except.ok.injEq] at h
    rw [← h]
    intro row hr
    simp at hr
  · exact readPages_rowOk file schema _ fuel 1 false [] tableData h
      (by intro row hr; simp at hr)

theorem read_alice_bob :
    read 3 (write [9, 9, 9] [rowAlice, rowBob] zeroInit zeroInit) testSchema =
      .ok [rowAlice, rowBob] := by
  have hstr : ∀ row ∈ [rowAlice, rowBob], ∀ s, Field.string s ∈ row →
      s.length < 4294967296 := by
    intro row hrow s hs
    have hw : wireSize row ≤ PAGE_SIZE := by
      simp only [List.mem_cons, List.mem_singleton, List.not_mem_nil, or_false] at hrow
      rcases hrow with h | h <;> rw [h] <;> decide
    have := wireSize_string_le row s hs
    simp only [PAGE_SIZE] at hw
    omega
  have h := read_write_filter testSchema [9, 9, 9] [rowAlice, rowBob] zeroInit zeroInit 3
    (by decide) hstr (by decide) (by decide)
  have hf : [rowAlice, rowBob].filter encodable = [rowAlice, rowBob] := by decide
  rw [hf] at h
  exact h

/-- C23: for every file content and every schema, each row that `read` returns
conforms to the schema given to `read` (it has the schema's length and, at each
position, the runtime type the schema declares) and holds no string longer than
4096 bytes; `Table::load` on a table with that file and schema then returns,
and every row of its row store conforms to the store's schema. -/
theorem read_rows_conform (fuel : Nat) (file : File) (schema : Schema)
    (tableData : TableData) (h : read fuel file schema = .ok tableData) :
    (∀ row ∈ tableData,
        conforms schema row ∧ row.length = schema.length ∧
        (∀ (i : Nat) (f : Field) (c : String × SupportedTypes),
          row[i]? = some f → schema[i]? = some c → f.runtimeType = c.2) ∧
        ∀ s, Field.string s ∈ row → s.length ≤ 4096) ∧
      ∃ t : Table, (Table.new file schema).load fuel = .ok t ∧
        t.rowStore.schema = schema ∧ t.rowStore.table_data = tableData ∧
        ∀ row ∈ t.rowStore.table_data, conforms t.rowStore.schema row := by
  have hok := read_rowOk fuel file schema tableData h
  refine ⟨?_, ?_⟩
  · intro row hr
    obtain ⟨hc, hs⟩ := hok row hr
    exact ⟨hc, ((conforms_iff_positional schema row).mp hc).1,
      ((conforms_iff_positional schema row).mp hc).2, hs⟩
  · refine ⟨{ (Table.new file schema) with
        rowStore := (Table.new file schema).rowStore.loadData tableData }, ?_, rfl, rfl, ?_⟩
    · simp only [Table.load, Table.new, h]
    · intro row hr
      exact (hok row hr).1

theorem read_rows_conform_witness :
    (∀ row ∈ [rowAlice, rowBob],
        conforms testSchema row ∧ row.length = testSchema.length ∧
        (∀ (i : Nat) (f : Field) (c : String × SupportedTypes),
          row[i]? = some f → testSchema[i]? = some c → f.runtimeType = c.2) ∧
        ∀ s, Field.string s ∈ row → s.length ≤ 4096) ∧
      ∃ t : Table,
        (Table.new (write [9, 9, 9] [rowAlice, rowBob] zeroInit zeroInit) testSchema).load 3 =
          .ok t ∧
        t.rowStore.schema = testSchema ∧ t.rowStore.table_data = [rowAlice, rowBob] ∧
        ∀ row ∈ t.rowStore.table_data, conforms t.rowStore.schema row :=
  read_rows_conform 3 (write [9, 9, 9] [rowAlice, rowBob] zeroInit zeroInit) testSchema
    [rowAlice, rowBob] read_alice_bob

/-! ### Page slots do not overlap -/

theorem getElem?_writePage_outside (file : File) (page : Page) (n i : Nat)
    (hi : i < file.length)
    (hout : i < pageOffset n ∨ pageOffset n + (SIZEOF_SIZE_T + PAGE_SIZE) ≤ i) :
    (writePage file page n)[i]? = file[i]? := by
  have hdl : (page.data.take PAGE_SIZE).length ≤ PAGE_SIZE := by
    rw [List.length_take]
    exact Nat.min_le_left _ _
  have hul : (toLE SIZEOF_SIZE_T page.used_bytes).length = SIZEOF_SIZE_T := toLE_length _ _
  have h1 : (pwrite file (pageOffset n) (toLE SIZEOF_SIZE_T page.used_bytes))[i]? = file[i]? := by
    rw [getElem?_pwrite, hul]
    rcases hout with h | h
    · rw [if_pos h, if_pos hi]
    · rw [if_neg (by omega), if_neg (by omega)]
  have hl1 : i < (pwrite file (pageOffset n) (toLE SIZEOF_SIZE_T page.used_bytes)).length := by
    rw [pwrite_length]
    omega
  unfold writePage
  simp only []
  rw [getElem?_pwrite]
  rcases hout with h | h
  · rw [if_pos (by omega), if_pos hl1, h1]
  · rw [if_neg (by omega), if_neg (by omega), h1]

theorem readHeader_writePage (file : File) (page : Page) (n : Nat)
    (hn1 : 1 ≤ n) (hn2 : n ≤ 4294967295) (hl : 4 ≤ file.length) :
    readHeader (writePage file page n) = readHeader file := by
  have hoff := pageOffset_eq n hn1 hn2
  have hlen : 4 ≤ (writePage file page n).length := by
    unfold writePage
    simp only [pwrite_length]
    omega
  have htake : (writePage file page n).take 4 = file.take 4 := by
    apply List.ext_getElem?
    intro i
    rw [List.getElem?_take, List.getElem?_take]
    by_cases h4 : i < 4
    · rw [if_pos h4, if_pos h4]
      exact getElem?_writePage_outside file page n i (by omega) (Or.inl (by omega))
    · rw [if_neg h4, if_neg h4]
  unfold readHeader
  rw [if_pos hlen, if_pos hl, htake]

/-- C22, counterexample: as `writePage` and `readPage` compute it in `size_t`
arithmetic, the slot of page 2^61 + 1 begins at the same byte as the slot of
page 1, so the two ranges are not disjoint. -/
theorem page_slots_overlap_past_counter :
    (2305843009213693953 : Nat) ≠ 1 ∧ 1 ≤ (2305843009213693953 : Nat) ∧
      (2305843009213693953 : Nat) < 18446744073709551616 ∧
      pageOffset 2305843009213693953 = pageOffset 1 ∧
      ¬ (pageOffset 2305843009213693953 + (8 + 4096) ≤ pageOffset 1 ∨
        pageOffset 1 + (8 + 4096) ≤ pageOffset 2305843009213693953) := by
  decide

/-- C22, amended: for all page numbers `m != n` with `1 <= m, n < 2^32` (the
values of the `uint32_t` page counters that `write` and `read` pass), the byte
ranges `[offset(n), offset(n) + 8 + 4096)` and `[offset(m), offset(m) + 8 + 4096)`
are disjoint and every slot starts at or after byte 4, so `writePage` of page
`n` changes no byte of the file outside the slot of page `n`: the header reads
as before, and so does every other page. -/
theorem page_slots_disjoint (m n : Nat) (hm1 : 1 ≤ m) (hm2 : m ≤ 4294967295)
    (hn1 : 1 ≤ n) (hn2 : n ≤ 4294967295) (hne : m ≠ n) :
    (pageOffset m + (8 + 4096) ≤ pageOffset n ∨ pageOffset n + (8 + 4096) ≤ pageOffset m) ∧
      4 ≤ pageOffset n ∧
      (∀ (file : File) (page : Page) (i : Nat), i < file.length →
        (i < pageOffset n ∨ pageOffset n + (8 + 4096) ≤ i) →
        (writePage file page n)[i]? = file[i]?) ∧
      (∀ (file : File) (page : Page), 4 ≤ file.length →
        readHeader (writePage file page n) = readHeader file) ∧
      (∀ (file : File) (page other : Page), readPage file false m = some other →
        readPage (writePage file page n) false m = some other) := by
  have hom := pageOffset_eq m hm1 hm2
  have hon := pageOffset_eq n hn1 hn2
  refine ⟨?_, by omega, ?_, ?_, ?_⟩
  · rcases Nat.lt_or_gt_of_ne hne with h | h
    · left; omega
    · right; omega
  · intro file page i hi hout
    exact getElem?_writePage_outside file page n i hi
      (by simp only [SIZEOF_SIZE_T, PAGE_SIZE]; exact hout)
  · intro file page hl
    exact readHeader_writePage file page n hn1 hn2 hl
  · intro file page other hr
    exact readPage_writePage_other file page other n m hn1 hn2 hm1 hm2 hne hr

theorem page_slots_disjoint_witness :
    (pageOffset 1 + (8 + 4096) ≤ pageOffset 2 ∨ pageOffset 2 + (8 + 4096) ≤ pageOffset 1) ∧
      4 ≤ pageOffset 2 :=
  ⟨(page_slots_disjoint 1 2 (by decide) (by decide) (by decide) (by decide) (by decide)).1,
    (page_slots_disjoint 1 2 (by decide) (by decide) (by decide) (by decide) (by decide)).2.1⟩

/-! ### Decoding and the page's data area -/

theorem overlongPage_data_length : overlongPage.data.length = PAGE_SIZE := by
  simp only [overlongPage, List.length_append, toLE_length, List.length_replicate, PAGE_SIZE]

theorem readPage_overlongFile : readPage overlongFile false 1 = some overlongPage := by
  unfold overlongFile
  exact readPage_writeHeader _ _ 1 1 (by decide) (by decide)
    (readPage_writePage_same [] overlongPage 1 overlongPage_data_length (by decide))

theorem readHeader_overlongFile : readHeader overlongFile = 1 := by
  unfold overlongFile
  exact readHeader_writeHeader _ 1 (by decide)

theorem readBytes_overlongPage_prefix :
    readBytes (overlongPage.getReadPtr 0) 0 4 = some (toLE 4 4096) := by
  have hl : (overlongPage.getReadPtr 0).length = 4096 := by
    rw [Page.getReadPtr, List.drop_zero]
    exact overlongPage_data_length
  unfold readBytes
  rw [if_pos (by omega)]
  rw [Page.getReadPtr, List.drop_zero, List.drop_zero]
  have h4 : (toLE 4 4096).length = 4 := toLE_length _ _
  show some ((toLE 4 4096 ++ List.replicate 4092 0).take 4) = _
  rw [List.take_left' h4]

theorem readBytes_overlongPage_body :
    readBytes (overlongPage.getReadPtr 0) (0 + 4) 4096 = none := by
  have hl : (overlongPage.getReadPtr 0).length = 4096 := by
    rw [Page.getReadPtr, List.drop_zero]
    exact overlongPage_data_length
  unfold readBytes
  rw [if_neg (by omega)]

theorem deserializeRow_overlongPage :
    deserializeRow (some (overlongPage.getReadPtr 0)) 5000 textSchema [] =
      .error .outOfBounds := by
  have h4 : fromLE (toLE 4 4096) % 4294967296 = 4096 := by
    rw [fromLE_toLE_four 4096 (by decide)]
  simp only [deserializeRow, textSchema, deserializeLoop, readBytes_overlongPage_prefix, h4,
    readBytes_overlongPage_body, PAGE_SIZE]
  decide


theorem decodeRows_overlongPage (fuel : Nat) (tableData : TableData) :
    decodeRows overlongPage textSchema (fuel + 1) 0 tableData = .error .outOfBounds := by
  have hu : overlongPage.used_bytes = 5000 := rfl
  rw [decodeRows, hu, if_pos (by decide), Nat.sub_zero, deserializeRow_overlongPage]

theorem decodeCalls_overlongPage (fuel : Nat) :
    decodeCalls overlongPage textSchema (fuel + 1) 0 = [(0, 5000)] := by
  have hu : overlongPage.used_bytes = 5000 := rfl
  rw [decodeCalls, hu, if_pos (by decide), Nat.sub_zero, deserializeRow_overlongPage]

theorem read_overlongFile (fuel : Nat) :
    read (fuel + 1) overlongFile textSchema = .error .outOfBounds := by
  have hu : overlongPage.used_bytes = 5000 := rfl
  unfold read
  simp only [readHeader_overlongFile]
  rw [if_neg (by decide), readPages, if_pos (Nat.le_refl 1)]
  simp only [readPage_overlongFile]
  rw [hu, decodeRows_overlongPage]

/-- With a buffer size that does not exceed the bytes behind the pointer, the
loop of `deserializeRow` reads no byte outside the array. -/
theorem deserializeLoop_inBounds (buffer : List Byte) (bufferSize : Nat)
    (hb : bufferSize ≤ buffer.length) (schema : Schema) (offset : Nat) (row : Row) :
    deserializeLoop buffer bufferSize schema offset row ≠ .error .outOfBounds := by
  induction schema generalizing offset row with
  | nil =>
    intro h
    simp only [deserializeLoop] at h
    cases h
  | cons col cols ih =>
    obtain ⟨name, ty⟩ := col
    cases ty with
    | INT =>
      rw [deserializeLoop]
      by_cases hc : offset + 4 > bufferSize
      · rw [if_pos hc]
        intro h
        cases h
      · rw [if_neg hc]
        have hr : readBytes buffer offset 4 = some ((buffer.drop offset).take 4) := by
          unfold readBytes
          rw [if_pos (by omega)]
        rw [hr]
        exact ih _ _
    | DOUBLE =>
      rw [deserializeLoop]
      by_cases hc : offset + 8 > bufferSize
      · rw [if_pos hc]
        intro h
        cases h
      · rw [if_neg hc]
        have hr : readBytes buffer offset 8 = some ((buffer.drop offset).take 8) := by
          unfold readBytes
          rw [if_pos (by omega)]
        rw [hr]
        exact ih _ _
    | STRING =>
      rw [deserializeLoop]
      by_cases hc : offset + 4 > bufferSize
      · rw [if_pos hc]
        intro h
        cases h
      · rw [if_neg hc]
        have hr : readBytes buffer offset 4 = some ((buffer.drop offset).take 4) := by
          unfold readBytes
          rw [if_pos (by omega)]
        rw [hr]
        simp only []
        by_cases hc2 : fromLE ((buffer.drop offset).take 4) % 4294967296 > PAGE_SIZE ∨
            offset + 4 + fromLE ((buffer.drop offset).take 4) % 4294967296 > bufferSize
        · rw [if_pos hc2]
          intro h
          cases h
        · rw [if_neg hc2]
          have hc3 : offset + 4 + fromLE ((buffer.drop offset).take 4) % 4294967296 ≤
              buffer.length := by
            have := not_or.mp hc2
            omega
          have hr2 : readBytes buffer (offset + 4)
              (fromLE ((buffer.drop offset).take 4) % 4294967296) =
              some ((buffer.drop (offset + 4)).take
                (fromLE ((buffer.drop offset).take 4) % 4294967296)) := by
            unfold readBytes
            rw [if_pos hc3]
          rw [hr2]
          exact ih _ _

/-- While the used-length of a page does not exceed its data area, every call
that the `while` loop of `read` makes has `offset + bufferSize` inside the
data area. -/
theorem decodeCalls_inBounds (page : Page) (schema : Schema)
    (hu : page.used_bytes ≤ page.data.length) (fuel offset : Nat) :
    ∀ c ∈ decodeCalls page schema fuel offset, c.1 + c.2 ≤ page.data.length := by
  induction fuel generalizing offset with
  | zero =>
    intro c hc
    simp only [decodeCalls, List.not_mem_nil] at hc
  | succ k ih =>
    intro c hc
    rw [decodeCalls] at hc
    by_cases ho : offset < page.used_bytes
    · rw [if_pos ho] at hc
      rcases List.mem_cons.mp hc with h | h
      · subst h
        show offset + (page.used_bytes - offset) ≤ page.data.length
        omega
      · cases hd : deserializeRow (some (page.getReadPtr offset)) (page.used_bytes - offset)
            schema [] with
        | error e =>
          rw [hd] at h
          simp only [List.not_mem_nil] at h
        | ok r =>
          obtain ⟨bytesRead, row⟩ := r
          rw [hd] at h
          simp only [] at h
          by_cases hz : bytesRead = 0
          · rw [if_pos hz] at h
            simp only [List.not_mem_nil] at h
          · rw [if_neg hz] at h
            exact ih _ c h
    · rw [if_neg ho] at hc
      simp only [List.not_mem_nil] at hc

/-- While the used-length of a page does not exceed its data area, the `while`
loop of `read` reads no byte outside the data area. -/
theorem decodeRows_inBounds (page : Page) (schema : Schema)
    (hu : page.used_bytes ≤ page.data.length) (fuel offset : Nat) (tableData : TableData) :
    decodeRows page schema fuel offset tableData ≠ .error .outOfBounds := by
  induction fuel generalizing offset tableData with
  | zero =>
    intro h
    simp only [decodeRows] at h
    cases h
  | succ k ih =>
    rw [decodeRows]
    by_cases ho : offset < page.used_bytes
    · rw [if_pos ho]
      cases hd : deserializeRow (some (page.getReadPtr offset)) (page.used_bytes - offset)
          schema [] with
      | error e =>
        exfalso
        have hne : page.used_bytes - offset ≠ 0 := by omega
        simp only [deserializeRow, hne, if_false] at hd
        have hb : page.used_bytes - offset ≤ (page.getReadPtr offset).length := by
          rw [Page.getReadPtr, List.length_drop]
          omega
        cases e with
        | outOfBounds => exact deserializeLoop_inBounds _ _ hb schema 0 [] hd
        | outOfFuel => exact deserializeLoop_ne_outOfFuel _ _ _ _ _ hd
      | ok r =>
        obtain ⟨bytesRead, row⟩ := r
        simp only []
        by_cases hz : bytesRead = 0
        · rw [if_pos hz]
          intro h
          cases h
        · rw [if_neg hz]
          exact ih _ _
    · rw [if_neg ho]
      intro h
      cases h


theorem pwrite_nil (pos : Nat) (bytes : List Byte) :
    pwrite [] pos bytes = List.replicate pos 0 ++ bytes := by
  unfold pwrite
  rw [List.length_nil, Nat.sub_zero, List.nil_append, List.drop_nil, List.append_nil,
    List.take_replicate, Nat.min_self]

theorem pwrite_at_end (file : File) (bytes : List Byte) :
    pwrite file file.length bytes = file ++ bytes := by
  unfold pwrite
  rw [Nat.sub_self, List.replicate_zero, List.append_nil, List.take_length,
    List.drop_eq_nil_of_le (by omega), List.append_nil]

theorem pwrite_zero_prefix (a rest bytes : List Byte) (h : bytes.length = a.length) :
    pwrite (a ++ rest) 0 bytes = bytes ++ rest := by
  unfold pwrite
  rw [List.take_zero, List.nil_append, Nat.zero_add, h, List.drop_left]

/-- The bytes of `overlongFile`: the header 1, the 4096 bytes between the
header and the first slot, the used-length 5000 and the 4096 data bytes. -/
theorem overlongFile_bytes :
    overlongFile =
      toLE 4 1 ++ (List.replicate 4096 0 ++ (toLE 8 5000 ++
        (toLE 4 4096 ++ List.replicate 4092 0))) := by
  have ho : pageOffset 1 = 4100 := by decide
  have hd : overlongPage.data.take PAGE_SIZE = toLE 4 4096 ++ List.replicate 4092 0 :=
    List.take_of_length_le (Nat.le_of_eq overlongPage_data_length)
  have hl : (List.replicate 4100 (0 : Byte) ++ toLE SIZEOF_SIZE_T 5000).length =
      4100 + SIZEOF_SIZE_T := by
    rw [List.length_append, List.length_replicate, toLE_length]
  have hr : List.replicate 4100 (0 : Byte) = List.replicate 4 0 ++ List.replicate 4096 0 := by
    rw [← List.replicate_add]
  have h4 : (toLE 4 1).length = (List.replicate 4 (0 : Byte)).length := by
    rw [toLE_length, List.length_replicate]
  unfold overlongFile writeHeader writePage
  simp only []
  rw [ho, hd, pwrite_nil]
  have hu : overlongPage.used_bytes = 5000 := rfl
  rw [hu, ← hl, pwrite_at_end, hr, List.append_assoc, List.append_assoc,
    pwrite_zero_prefix _ _ _ h4]
  rfl


/-- C21: decoding does not stay inside the page when the used-length field read
from the file is larger than 4096.  On `overlongFile` (header 1, one slot whose
used-length field is 5000 and whose data area begins with the string length
4096) `readPage` returns the page with `used_bytes = 5000`; the only
`deserializeRow` call of `read` gets offset 0 and `bufferSize` 5000, so
`offset + bufferSize` exceeds 4096; that call does not return the zero-length
sentinel but copies 4096 bytes from offset 4 of the 4096-byte data area, a read
outside the array, and so `read` as a whole faults.  While the used-length is
at most the size of the data area, every call is inside it and no read leaves
the array. -/
theorem read_overlong_used_bytes_leaves_page :
    readHeader overlongFile = 1 ∧
      readPage overlongFile false 1 = some overlongPage ∧
      overlongPage.data.length = 4096 ∧ overlongPage.used_bytes = 5000 ∧
      (∀ fuel : Nat, decodeCalls overlongPage textSchema (fuel + 1) 0 = [(0, 5000)]) ∧
      ¬ (0 + 5000 ≤ 4096) ∧
      readBytes (overlongPage.getReadPtr 0) 0 4 = some (toLE 4 4096) ∧
      readBytes (overlongPage.getReadPtr 0) (0 + 4) 4096 = none ∧
      deserializeRow (some (overlongPage.getReadPtr 0)) 5000 textSchema [] =
        .error .outOfBounds ∧
      (∀ row : Row,
        deserializeRow (some (overlongPage.getReadPtr 0)) 5000 textSchema [] ≠ .ok (0, row)) ∧
      (∀ fuel : Nat, read (fuel + 1) overlongFile textSchema = .error .outOfBounds) ∧
      (∀ (page : Page) (schema : Schema) (fuel offset : Nat) (tableData : TableData),
        page.used_bytes ≤ page.data.length →
        (∀ c ∈ decodeCalls page schema fuel offset, c.1 + c.2 ≤ page.data.length) ∧
          decodeRows page schema fuel offset tableData ≠ .error .outOfBounds) := by
  refine ⟨readHeader_overlongFile, readPage_overlongFile, overlongPage_data_length, rfl,
    decodeCalls_overlongPage, by decide, readBytes_overlongPage_prefix,
    readBytes_overlongPage_body, deserializeRow_overlongPage, ?_, read_overlongFile, ?_⟩
  · intro row h
    rw [deserializeRow_overlongPage] at h
    cases h
  · intro page schema fuel offset tableData hu
    exact ⟨decodeCalls_inBounds page schema hu fuel offset,
      decodeRows_inBounds page schema hu fuel offset tableData⟩

end MiniDB
